import Mathlib

/-!
# A verification model of the `kvs` log-structured key-value store

This file embeds the storage engine of the `kvs` repository
(`src/engines/kvs.rs`, `src/kv.rs`, `src/persist.rs`, `src/server.rs`)
as executable Lean definitions and proves properties of the embedding.

Files on disk are modelled as lists of characters; log records are the
exact `serde_json` text serialization of the `Operation` enum
(`#[serde(tag = "type")]`, so `Set{key,value}` serializes as
`{"type":"Set","key":K,"value":V}` and `Rm{key}` as `{"type":"Rm","key":K}`,
with the standard JSON string escapes).  Maps (the in-memory index, the
directory of segment files, the replay model) are association lists; the
index keeps its keys sorted, mirroring the `SkipMap`/`BTreeMap` ordering
of the source.  Buffered writers are collapsed to immediate appends
(every write in the source is followed by a `flush` before it matters),
and the reader-side file-descriptor caches of the concurrent engine,
which never change what bytes a read returns, are dropped; the
single-threaded engine of `src/kv.rs`, whose reader map is semantically
load-bearing (a missing reader panics), is modelled separately with the
reader map kept.
-/

set_option maxHeartbeats 1000000

namespace Kvs

/-- The on-disk operation record (`Operation` in `src/engines/kvs.rs` and
`src/persist.rs`). -/
inductive Operation where
  | Set (key value : String)
  | Rm (key : String)
deriving DecidableEq

/-- A record locator (`OperationPos`): generation, byte offset, byte length. -/
structure OperationPos where
  gen : Nat
  pos : Nat
  len : Nat
deriving DecidableEq

/-- The error kinds of `KvsError` that the modelled code paths can produce. -/
inductive KvsError where
  | io
  | serde
  | keyNotFound
  | unexpectedCommandType
deriving DecidableEq

/-! ## Association lists

The source keeps its maps in `SkipMap`/`BTreeMap`/`HashMap`; we model them
as association lists.  `ains` inserts keeping keys sorted (mirroring the
sorted iteration order of `SkipMap` and `BTreeMap`), `aerase` removes a
key, `alookup` is point lookup. -/

/-- Point lookup in an association list (first occurrence). -/
def alookup [DecidableEq κ] : List (κ × α) → κ → Option α
  | [], _ => none
  | p :: t, k => if p.1 = k then some p.2 else alookup t k

/-- Insert-or-replace keeping keys in ascending order. -/
def ains [LinearOrder κ] : List (κ × α) → κ → α → List (κ × α)
  | [], k, v => [(k, v)]
  | p :: t, k, v =>
    if k < p.1 then (k, v) :: p :: t
    else if k = p.1 then (k, v) :: t
    else p :: ains t k v

/-- Remove every binding of a key. -/
def aerase [DecidableEq κ] : List (κ × α) → κ → List (κ × α)
  | [], _ => []
  | p :: t, k => if p.1 = k then aerase t k else p :: aerase t k

theorem alookup_ains_self [LinearOrder κ] [DecidableEq κ] (l : List (κ × α)) (k : κ) (v : α) :
    alookup (ains l k v) k = some v := by
  induction l with
  | nil => simp [ains, alookup]
  | cons p t ih =>
    by_cases h1 : k < p.1
    · simp [ains, h1, alookup]
    · by_cases h2 : k = p.1
      · simp [ains, h1, h2, alookup]
      · have hne : p.1 ≠ k := fun h => h2 h.symm
        simp [ains, h1, h2, alookup, hne, ih]

theorem alookup_ains_ne [LinearOrder κ] [DecidableEq κ] (l : List (κ × α)) (k k' : κ) (v : α)
    (h : k' ≠ k) : alookup (ains l k v) k' = alookup l k' := by
  have hk : k ≠ k' := Ne.symm h
  induction l with
  | nil => simp [ains, alookup, hk]
  | cons p t ih =>
    by_cases h1 : k < p.1
    · simp [ains, h1, alookup, hk]
    · by_cases h2 : k = p.1
      · have hpk : p.1 ≠ k' := h2 ▸ hk
        simp [ains, h1, h2, alookup, hk, hpk]
      · simp [ains, h1, h2, alookup, ih]

theorem alookup_aerase_self [DecidableEq κ] (l : List (κ × α)) (k : κ) :
    alookup (aerase l k) k = none := by
  induction l with
  | nil => simp [aerase, alookup]
  | cons p t ih =>
    by_cases h : p.1 = k
    · simp [aerase, h, ih]
    · simp [aerase, h, alookup, ih]

theorem alookup_aerase_ne [DecidableEq κ] (l : List (κ × α)) (k k' : κ)
    (h : k' ≠ k) : alookup (aerase l k) k' = alookup l k' := by
  have hk : k ≠ k' := Ne.symm h
  induction l with
  | nil => simp [aerase]
  | cons p t ih =>
    by_cases hp : p.1 = k
    · simp [aerase, hp, alookup, hk, ih]
    · simp [aerase, hp, alookup, ih]

theorem alookup_eq_none_iff [DecidableEq κ] (l : List (κ × α)) (k : κ) :
    alookup l k = none ↔ k ∉ l.map Prod.fst := by
  induction l with
  | nil => simp [alookup]
  | cons p t ih =>
    by_cases h : p.1 = k
    · simp [alookup, h]
    · have hk : ¬k = p.1 := fun hh => h hh.symm
      simp [alookup, h, ih, hk]

theorem mem_of_alookup_eq_some [DecidableEq κ] {l : List (κ × α)} {k : κ} {v : α}
    (h : alookup l k = some v) : (k, v) ∈ l := by
  induction l with
  | nil => simp [alookup] at h
  | cons p t ih =>
    obtain ⟨a, b⟩ := p
    by_cases hp : a = k
    · subst hp
      simp only [alookup, if_pos rfl] at h
      obtain rfl := Option.some.inj h
      exact List.mem_cons_self _ _
    · simp only [alookup, if_neg hp] at h
      exact List.mem_cons_of_mem _ (ih h)

theorem alookup_of_mem_nodup [DecidableEq κ] {l : List (κ × α)} {k : κ} {v : α}
    (hn : (l.map Prod.fst).Nodup) (h : (k, v) ∈ l) : alookup l k = some v := by
  induction l with
  | nil => simp at h
  | cons p t ih =>
    simp only [List.map_cons, List.nodup_cons] at hn
    rcases List.mem_cons.mp h with h | h
    · rw [← h]
      simp [alookup]
    · have hpk : p.1 ≠ k := by
        intro hh
        exact hn.1 (hh ▸ (List.mem_map.mpr ⟨(k, v), h, rfl⟩))
      simp [alookup, hpk, ih hn.2 h]

theorem alookup_append_left [DecidableEq κ] {l₁ : List (κ × α)} (l₂ : List (κ × α))
    {k : κ} {v : α} (h : alookup l₁ k = some v) :
    alookup (l₁ ++ l₂) k = some v := by
  induction l₁ with
  | nil => simp [alookup] at h
  | cons p t ih =>
    by_cases hp : p.1 = k
    · simp_all [alookup]
    · simp_all [alookup]

theorem alookup_append_right [DecidableEq κ] {l₁ : List (κ × α)} (l₂ : List (κ × α))
    {k : κ} (h : alookup l₁ k = none) :
    alookup (l₁ ++ l₂) k = alookup l₂ k := by
  induction l₁ with
  | nil => simp
  | cons p t ih =>
    by_cases hp : p.1 = k
    · simp [alookup, hp] at h
    · simp only [alookup, hp, if_false, List.cons_append] at h ⊢
      simp [alookup, hp, ih h]

theorem mem_map_fst_ains [LinearOrder κ] [DecidableEq κ] (l : List (κ × α)) (k : κ) (v : α) :
    ∀ x ∈ (ains l k v).map Prod.fst, x ∈ l.map Prod.fst ∨ x = k := by
  induction l with
  | nil => simp [ains]
  | cons p t ih =>
    intro x hx
    by_cases h1 : k < p.1
    · simp only [ains, if_pos h1, List.map_cons, List.mem_cons] at hx
      rcases hx with h | h | h
      · exact Or.inr h
      · exact Or.inl (by simp [h])
      · exact Or.inl (by simp [h])
    · by_cases h2 : k = p.1
      · simp only [ains, if_neg h1, if_pos h2, List.map_cons, List.mem_cons] at hx
        rcases hx with h | h
        · exact Or.inr h
        · exact Or.inl (by simp [h])
      · simp only [ains, if_neg h1, if_neg h2, List.map_cons, List.mem_cons] at hx
        rcases hx with h | h
        · exact Or.inl (by simp [h])
        · rcases ih x h with h | h
          · exact Or.inl (by simp [h])
          · exact Or.inr h

theorem pairwise_keys_ains [LinearOrder κ] [DecidableEq κ] (l : List (κ × α)) (k : κ) (v : α)
    (hs : (l.map Prod.fst).Pairwise (· < ·)) :
    ((ains l k v).map Prod.fst).Pairwise (· < ·) := by
  induction l with
  | nil => simp [ains]
  | cons p t ih =>
    simp only [List.map_cons, List.pairwise_cons] at hs
    by_cases h1 : k < p.1
    · simp only [ains, if_pos h1, List.map_cons, List.pairwise_cons]
      refine ⟨?_, hs.1, hs.2⟩
      intro x hx
      simp only [List.mem_cons] at hx
      rcases hx with h | h
      · rw [h]; exact h1
      · exact lt_trans h1 (hs.1 x h)
    · by_cases h2 : k = p.1
      · have hrw : ains (p :: t) k v = (k, v) :: t := by
          simp [ains, h1, h2]
        rw [hrw]
        simp only [List.map_cons, List.pairwise_cons]
        exact ⟨fun x hx => h2 ▸ hs.1 x hx, hs.2⟩
      · simp only [ains, if_neg h1, if_neg h2, List.map_cons, List.pairwise_cons]
        refine ⟨?_, ih hs.2⟩
        intro x hx
        rcases mem_map_fst_ains t k v x hx with h | h
        · exact hs.1 x h
        · rw [h]
          rcases lt_trichotomy k p.1 with hh | hh | hh
          · exact absurd hh h1
          · exact absurd hh h2
          · exact hh

theorem mem_of_mem_aerase [DecidableEq κ] {l : List (κ × α)} {k : κ} {q : κ × α}
    (h : q ∈ aerase l k) : q ∈ l := by
  induction l with
  | nil => simp [aerase] at h
  | cons p t ih =>
    by_cases hp : p.1 = k
    · simp only [aerase, if_pos hp] at h
      exact List.mem_cons_of_mem _ (ih h)
    · simp only [aerase, if_neg hp, List.mem_cons] at h
      rcases h with h | h
      · exact h ▸ List.mem_cons_self p t
      · exact List.mem_cons_of_mem _ (ih h)

theorem pairwise_keys_aerase [LinearOrder κ] [DecidableEq κ] (l : List (κ × α)) (k : κ)
    (hs : (l.map Prod.fst).Pairwise (· < ·)) :
    ((aerase l k).map Prod.fst).Pairwise (· < ·) := by
  induction l with
  | nil => simp [aerase]
  | cons p t ih =>
    simp only [List.map_cons, List.pairwise_cons] at hs
    by_cases hp : p.1 = k
    · simp only [aerase, if_pos hp]
      exact ih hs.2
    · simp only [aerase, if_neg hp, List.map_cons, List.pairwise_cons]
      refine ⟨?_, ih hs.2⟩
      intro x hx
      rcases List.mem_map.mp hx with ⟨q, hq, hqx⟩
      exact hqx ▸ hs.1 q.1 (List.mem_map.mpr ⟨q, mem_of_mem_aerase hq, rfl⟩)

/-! ## The `serde_json` wire format of `Operation`

`serde_json::to_writer` of the tagged enum emits
`{"type":"Set","key":K,"value":V}` / `{"type":"Rm","key":K}` with the
standard JSON string escapes (`\"`, `\\`, `\b`, `\t`, `\n`, `\f`, `\r`,
and `\u00XX` for the remaining control characters).  `encOp` reproduces
that byte sequence exactly; `parseOp` is a prefix parser for the same
grammar, mirroring how `serde_json`'s streaming deserializer consumes
records that this program itself wrote. -/

/-- Lowercase hex digit, as emitted by `serde_json` in `\u00XX` escapes. -/
def hexDig (n : Nat) : Char :=
  if n < 10 then Char.ofNat (48 + n) else Char.ofNat (87 + n)

/-- Value of a hex digit accepted by the JSON `\uXXXX` escape. -/
def hexVal (c : Char) : Option Nat :=
  if 48 ≤ c.toNat ∧ c.toNat ≤ 57 then some (c.toNat - 48)
  else if 97 ≤ c.toNat ∧ c.toNat ≤ 102 then some (c.toNat - 87)
  else if 65 ≤ c.toNat ∧ c.toNat ≤ 70 then some (c.toNat - 55)
  else none

/-- The JSON escape of one character, following `serde_json`'s escape table. -/
def escChar (c : Char) : List Char :=
  if c = '"' then ['\\', '"']
  else if c = '\\' then ['\\', '\\']
  else if c = '\x08' then ['\\', 'b']
  else if c = '\t' then ['\\', 't']
  else if c = '\n' then ['\\', 'n']
  else if c = '\x0c' then ['\\', 'f']
  else if c = '\r' then ['\\', 'r']
  else if c.toNat < 32 then
    ['\\', 'u', '0', '0', hexDig (c.toNat / 16), hexDig (c.toNat % 16)]
  else [c]

/-- JSON-escape a character list. -/
def escList : List Char → List Char
  | [] => []
  | c :: t => escChar c ++ escList t

/-- `{"type":"` -/
def tagLit : List Char := ['\x7b', '"', 't', 'y', 'p', 'e', '"', ':', '"']
/-- `Set","key":"` -/
def setLit : List Char := ['S', 'e', 't', '"', ',', '"', 'k', 'e', 'y', '"', ':', '"']
/-- `Rm","key":"` -/
def rmLit : List Char := ['R', 'm', '"', ',', '"', 'k', 'e', 'y', '"', ':', '"']
/-- `,"value":"` -/
def valLit : List Char := [',', '"', 'v', 'a', 'l', 'u', 'e', '"', ':', '"']
/-- `}` -/
def closeLit : List Char := ['\x7d']

/-- The exact `serde_json` serialization of an `Operation`. -/
def encOp : Operation → List Char
  | .Set k v =>
    tagLit ++ setLit ++ escList k.data ++ '"' :: (valLit ++ escList v.data ++ '"' :: closeLit)
  | .Rm k => tagLit ++ rmLit ++ escList k.data ++ '"' :: closeLit

/-- Serialization of a list of operations, appended in order. -/
def encOps : List Operation → List Char
  | [] => []
  | op :: t => encOp op ++ encOps t

theorem encOps_append (a b : List Operation) :
    encOps (a ++ b) = encOps a ++ encOps b := by
  induction a with
  | nil => simp [encOps]
  | cons op t ih => simp [encOps, ih]

/-- Consume an expected literal from the front of the input. -/
def parseLit : List Char → List Char → Option (List Char)
  | [], input => some input
  | _ :: _, [] => none
  | l :: ls, c :: cs => if c = l then parseLit ls cs else none

theorem parseLit_append (lit r : List Char) : parseLit lit (lit ++ r) = some r := by
  induction lit with
  | nil => simp [parseLit]
  | cons c cs ih => simp [parseLit, ih]

theorem parseLit_length {lit input r : List Char} (h : parseLit lit input = some r) :
    r.length + lit.length = input.length := by
  induction lit generalizing input with
  | nil =>
    simp only [parseLit, Option.some.injEq] at h
    simp [← h]
  | cons c cs ih =>
    match input with
    | [] => simp [parseLit] at h
    | x :: xs =>
      simp only [parseLit] at h
      split at h
      · have := ih h
        simp [List.length_cons]
        omega
      · exact absurd h (by simp)

/-- Decoding of the single-character JSON escapes (everything but `\uXXXX`). -/
def escDecode (e : Char) : Option Char :=
  if e = '"' then some '"'
  else if e = '\\' then some '\\'
  else if e = 'b' then some '\x08'
  else if e = 't' then some '\t'
  else if e = 'n' then some '\n'
  else if e = 'f' then some '\x0c'
  else if e = 'r' then some '\r'
  else none

/-- Fueled JSON string-body parser: consumes characters up to and including
the closing quote, undoing the escapes of `escChar`.  The fuel is an upper
bound on the input length; `parseStrBody` instantiates it exactly. -/
def psb : Nat → List Char → Option (List Char × List Char)
  | 0, _ => none
  | _ + 1, [] => none
  | fuel + 1, c :: rest =>
    if c = '"' then some ([], rest)
    else if c = '\\' then
      match rest with
      | [] => none
      | e :: rest2 =>
        if e = 'u' then
          match rest2 with
          | h1 :: h2 :: h3 :: h4 :: rest3 =>
            match hexVal h1, hexVal h2, hexVal h3, hexVal h4 with
            | some a, some b, some c2, some d =>
              (psb fuel rest3).map
                (fun p => (Char.ofNat (4096 * a + 256 * b + 16 * c2 + d) :: p.1, p.2))
            | _, _, _, _ => none
          | _ => none
        else
          match escDecode e with
          | some d => (psb fuel rest2).map (fun p => (d :: p.1, p.2))
          | none => none
    else if c.toNat < 32 then none
    else (psb fuel rest).map (fun p => (c :: p.1, p.2))

/-- JSON string-body parser (after the opening quote has been consumed). -/
def parseStrBody (l : List Char) : Option (List Char × List Char) :=
  psb l.length l

theorem psb_length : ∀ (fuel : Nat) (l s r : List Char),
    psb fuel l = some (s, r) → r.length < l.length := by
  intro fuel
  induction fuel with
  | zero => intro l s r h; simp [psb] at h
  | succ fuel ih =>
    intro l s r h
    match l with
    | [] => simp [psb] at h
    | c :: rest =>
      by_cases h1 : c = '"'
      · simp only [psb, if_pos h1, Option.some.injEq, Prod.mk.injEq] at h
        simp [← h.2]
      · by_cases h2 : c = '\\'
        · match rest with
          | [] => simp [psb, h1, h2] at h
          | e :: rest2 =>
            by_cases hu : e = 'u'
            · match rest2 with
              | [] => simp [psb, h1, h2, hu] at h
              | [_] => simp [psb, h1, h2, hu] at h
              | [_, _] => simp [psb, h1, h2, hu] at h
              | [_, _, _] => simp [psb, h1, h2, hu] at h
              | h1' :: h2' :: h3' :: h4' :: rest3 =>
                simp only [psb, if_neg h1, if_pos h2, if_pos hu] at h
                cases hh1 : hexVal h1' with
                | none => rw [hh1] at h; simp at h
                | some a =>
                  rw [hh1] at h
                  cases hh2 : hexVal h2' with
                  | none => rw [hh2] at h; simp at h
                  | some b =>
                    rw [hh2] at h
                    cases hh3 : hexVal h3' with
                    | none => rw [hh3] at h; simp at h
                    | some c2 =>
                      rw [hh3] at h
                      cases hh4 : hexVal h4' with
                      | none => rw [hh4] at h; simp at h
                      | some d =>
                        rw [hh4] at h
                        simp only [Option.map_eq_some'] at h
                        obtain ⟨⟨s', r'⟩, hp, he⟩ := h
                        have hr : r' = r := congrArg Prod.snd he
                        subst hr
                        have := ih rest3 s' r' hp
                        simp [List.length_cons]
                        omega
            · simp only [psb, if_neg h1, if_pos h2, if_neg hu] at h
              cases hd : escDecode e with
              | none => rw [hd] at h; simp at h
              | some d =>
                rw [hd] at h
                simp only [Option.map_eq_some'] at h
                obtain ⟨⟨s', r'⟩, hp, he⟩ := h
                have hr : r' = r := congrArg Prod.snd he
                subst hr
                have := ih rest2 s' r' hp
                simp [List.length_cons]
                omega
        · by_cases h3 : c.toNat < 32
          · simp [psb, h1, h2, h3] at h
          · simp only [psb, if_neg h1, if_neg h2, if_neg h3, Option.map_eq_some'] at h
            obtain ⟨⟨s', r'⟩, hp, he⟩ := h
            have hr : r' = r := congrArg Prod.snd he
            subst hr
            have := ih rest s' r' hp
            simp [List.length_cons]
            omega

theorem hexVal_hexDig : ∀ n, n < 16 → hexVal (hexDig n) = some n := by decide

theorem hexVal_zero : hexVal '0' = some 0 := by decide

theorem psb_escList : ∀ (s : List Char) (fuel : Nat) (r : List Char),
    (escList s ++ '"' :: r).length ≤ fuel →
    psb fuel (escList s ++ '"' :: r) = some (s, r) := by
  intro s
  induction s with
  | nil =>
    intro fuel r h
    match fuel with
    | 0 => simp [escList] at h
    | f + 1 => simp [escList, psb]
  | cons c t ih =>
    intro fuel r h
    by_cases h1 : c = '"'
    · subst h1
      have he : escList ('"' :: t) = '\\' :: '"' :: escList t := by simp [escList, escChar]
      rw [he] at h ⊢
      match fuel with
      | 0 => simp at h
      | f + 1 =>
        have hrec := ih f r (by simp at h ⊢; omega)
        simp [psb, escDecode, hrec]
    · by_cases h2 : c = '\\'
      · subst h2
        have he : escList ('\\' :: t) = '\\' :: '\\' :: escList t := by simp [escList, escChar]
        rw [he] at h ⊢
        match fuel with
        | 0 => simp at h
        | f + 1 =>
          have hrec := ih f r (by simp at h ⊢; omega)
          simp [psb, escDecode, hrec]
      · by_cases h3 : c = '\x08'
        · subst h3
          have he : escList ('\x08' :: t) = '\\' :: 'b' :: escList t := by simp [escList, escChar]
          rw [he] at h ⊢
          match fuel with
          | 0 => simp at h
          | f + 1 =>
            have hrec := ih f r (by simp at h ⊢; omega)
            simp [psb, escDecode, hrec]
        · by_cases h4 : c = '\t'
          · subst h4
            have he : escList ('\t' :: t) = '\\' :: 't' :: escList t := by simp [escList, escChar]
            rw [he] at h ⊢
            match fuel with
            | 0 => simp at h
            | f + 1 =>
              have hrec := ih f r (by simp at h ⊢; omega)
              simp [psb, escDecode, hrec]
          · by_cases h5 : c = '\n'
            · subst h5
              have he : escList ('\n' :: t) = '\\' :: 'n' :: escList t := by
                simp [escList, escChar]
              rw [he] at h ⊢
              match fuel with
              | 0 => simp at h
              | f + 1 =>
                have hrec := ih f r (by simp at h ⊢; omega)
                simp [psb, escDecode, hrec]
            · by_cases h6 : c = '\x0c'
              · subst h6
                have he : escList ('\x0c' :: t) = '\\' :: 'f' :: escList t := by
                  simp [escList, escChar]
                rw [he] at h ⊢
                match fuel with
                | 0 => simp at h
                | f + 1 =>
                  have hrec := ih f r (by simp at h ⊢; omega)
                  simp [psb, escDecode, hrec]
              · by_cases h7 : c = '\r'
                · subst h7
                  have he : escList ('\r' :: t) = '\\' :: 'r' :: escList t := by
                    simp [escList, escChar]
                  rw [he] at h ⊢
                  match fuel with
                  | 0 => simp at h
                  | f + 1 =>
                    have hrec := ih f r (by simp at h ⊢; omega)
                    simp [psb, escDecode, hrec]
                · by_cases h8 : c.toNat < 32
                  · have he : escList (c :: t) =
                        '\\' :: 'u' :: '0' :: '0' :: hexDig (c.toNat / 16) ::
                          hexDig (c.toNat % 16) :: escList t := by
                      simp [escList, escChar, h1, h2, h3, h4, h5, h6, h7, h8]
                    rw [he] at h ⊢
                    match fuel with
                    | 0 => simp at h
                    | f + 1 =>
                      have hrec := ih f r (by simp at h ⊢; omega)
                      have hd1 : hexVal (hexDig (c.toNat / 16)) = some (c.toNat / 16) :=
                        hexVal_hexDig _ (by omega)
                      have hd2 : hexVal (hexDig (c.toNat % 16)) = some (c.toNat % 16) :=
                        hexVal_hexDig _ (by omega)
                      simp [psb, hexVal_zero, hd1, hd2, hrec]
                      rw [show 16 * (c.toNat / 16) + c.toNat % 16 = c.toNat by omega,
                        Char.ofNat_toNat]
                  · have he : escList (c :: t) = c :: escList t := by
                      simp [escList, escChar, h1, h2, h3, h4, h5, h6, h7, h8]
                    rw [he] at h ⊢
                    match fuel with
                    | 0 => simp at h
                    | f + 1 =>
                      have hrec := ih f r (by simp at h ⊢; omega)
                      simp [psb, h1, h2, h8, hrec]

/-- Round-trip for JSON strings: parsing the escaped body up to the closing
quote returns the original characters and the tail. -/
theorem parseStrBody_escList (s : List Char) (r : List Char) :
    parseStrBody (escList s ++ '"' :: r) = some (s, r) :=
  psb_escList s _ r (le_refl _)

theorem parseStrBody_length {l s r : List Char}
    (h : parseStrBody l = some (s, r)) : r.length < l.length :=
  psb_length _ l s r h

/-- Streaming parser for one serialized `Operation`, mirroring what
`serde_json`'s deserializer accepts on records written by this program.
Returns the decoded operation and the unconsumed tail. -/
def parseOp (input : List Char) : Option (Operation × List Char) :=
  match parseLit tagLit input with
  | none => none
  | some r0 =>
    match parseLit setLit r0 with
    | some r1 =>
      match parseStrBody r1 with
      | none => none
      | some (k, r2) =>
        match parseLit valLit r2 with
        | none => none
        | some r3 =>
          match parseStrBody r3 with
          | none => none
          | some (v, r4) =>
            match parseLit closeLit r4 with
            | none => none
            | some r5 => some (.Set (String.mk k) (String.mk v), r5)
    | none =>
      match parseLit rmLit r0 with
      | none => none
      | some r1 =>
        match parseStrBody r1 with
        | none => none
        | some (k, r2) =>
          match parseLit closeLit r2 with
          | none => none
          | some r3 => some (.Rm (String.mk k), r3)

/-- Round-trip: parsing the encoding of an operation returns the operation
and leaves the tail untouched. -/
theorem parseOp_encOp (op : Operation) (r : List Char) :
    parseOp (encOp op ++ r) = some (op, r) := by
  match op with
  | .Set k v =>
    have hshape : encOp (.Set k v) ++ r
        = tagLit ++ (setLit ++ (escList k.data ++
          '"' :: (valLit ++ (escList v.data ++ '"' :: (closeLit ++ r))))) := by
      simp [encOp]
    rw [hshape]
    simp only [parseOp, parseLit_append, parseStrBody_escList]
  | .Rm k =>
    have hshape : encOp (.Rm k) ++ r
        = tagLit ++ (rmLit ++ (escList k.data ++ '"' :: (closeLit ++ r))) := by
      simp [encOp]
    rw [hshape]
    have hset : parseLit setLit (rmLit ++ (escList k.data ++ '"' :: (closeLit ++ r))) = none := by
      simp [setLit, rmLit, parseLit]
    simp only [parseOp, parseLit_append, parseStrBody_escList, hset]

/-- A successful parse consumes at least one character. -/
theorem parseOp_length {input : List Char} {op : Operation} {rest : List Char}
    (h : parseOp input = some (op, rest)) : rest.length < input.length := by
  unfold parseOp at h
  cases h0 : parseLit tagLit input with
  | none => rw [h0] at h; simp at h
  | some r0 =>
    simp only [h0] at h
    have l0 := parseLit_length h0
    simp only [tagLit, List.length_cons, List.length_nil] at l0
    cases h1 : parseLit setLit r0 with
    | some r1 =>
      simp only [h1] at h
      have l1 := parseLit_length h1
      simp only [setLit, List.length_cons, List.length_nil] at l1
      cases h2 : parseStrBody r1 with
      | none => rw [h2] at h; simp at h
      | some p =>
        obtain ⟨k, r2⟩ := p
        simp only [h2] at h
        have l2 := parseStrBody_length h2
        cases h3 : parseLit valLit r2 with
        | none => rw [h3] at h; simp at h
        | some r3 =>
          simp only [h3] at h
          have l3 := parseLit_length h3
          simp only [valLit, List.length_cons, List.length_nil] at l3
          cases h4 : parseStrBody r3 with
          | none => rw [h4] at h; simp at h
          | some p4 =>
            obtain ⟨v, r4⟩ := p4
            simp only [h4] at h
            have l4 := parseStrBody_length h4
            cases h5 : parseLit closeLit r4 with
            | none => rw [h5] at h; simp at h
            | some r5 =>
              simp only [h5] at h
              have l5 := parseLit_length h5
              simp only [closeLit, List.length_cons, List.length_nil] at l5
              simp only [Option.some.injEq, Prod.mk.injEq] at h
              obtain ⟨-, rfl⟩ := h
              omega
    | none =>
      simp only [h1] at h
      cases h1' : parseLit rmLit r0 with
      | none => rw [h1'] at h; simp at h
      | some r1 =>
        simp only [h1'] at h
        have l1 := parseLit_length h1'
        simp only [rmLit, List.length_cons, List.length_nil] at l1
        cases h2 : parseStrBody r1 with
        | none => rw [h2] at h; simp at h
        | some p =>
          obtain ⟨k, r2⟩ := p
          simp only [h2] at h
          have l2 := parseStrBody_length h2
          cases h3 : parseLit closeLit r2 with
          | none => rw [h3] at h; simp at h
          | some r3 =>
            simp only [h3] at h
            have l3 := parseLit_length h3
            simp only [closeLit, List.length_cons, List.length_nil] at l3
            simp only [Option.some.injEq, Prod.mk.injEq] at h
            obtain ⟨-, rfl⟩ := h
            omega

theorem encOp_length_pos (op : Operation) : 0 < (encOp op).length := by
  cases op <;> simp [encOp, tagLit]

/-! ## Maps, segments and replay

`Index`, `Model` and `Disk` are the in-memory index (key → record
locator), the logical key → value map, and the data directory
(generation → file contents). -/

/-- In-memory index: key → record locator. -/
abbrev Index := List (String × OperationPos)
/-- Logical contents: key → value. -/
abbrev Model := List (String × String)
/-- The data directory: generation → file bytes. -/
abbrev Disk := List (Nat × List Char)

/-- `if let Some(old) = index.get(&key) { old.len } else { 0 }`. -/
def oldLen (idx : Index) (k : String) : Nat :=
  match alookup idx k with
  | some old => old.len
  | none => 0

/-- One file's bytes viewed at a record locator's window:
seek to `pos`, read `len` bytes. -/
def window (f : List Char) (pos len : Nat) : List Char :=
  (f.drop pos).take len

/-- `new_log_file`: create `<gen>.log` (append mode creates the file if
missing and never truncates). -/
def diskCreate (d : Disk) (g : Nat) : Disk :=
  if (alookup d g).isSome then d else d ++ [(g, [])]

/-- Flush appended bytes to the end of segment `g`. -/
def diskAppend (d : Disk) (g : Nat) (bytes : List Char) : Disk :=
  d.map (fun p => if p.1 = g then (p.1, p.2 ++ bytes) else p)

/-- `sorted_gen_list`: the generation numbers present, ascending. -/
def sortGens (d : Disk) : List Nat :=
  List.insertionSort (· ≤ ·) (d.map Prod.fst)

theorem diskAppend_keys (d : Disk) (g : Nat) (bytes : List Char) :
    (diskAppend d g bytes).map Prod.fst = d.map Prod.fst := by
  induction d with
  | nil => rfl
  | cons p t ih =>
    have hp : (if p.1 = g then (p.1, p.2 ++ bytes) else p).1 = p.1 := by
      by_cases h : p.1 = g <;> simp [h]
    calc (diskAppend (p :: t) g bytes).map Prod.fst
        = (if p.1 = g then (p.1, p.2 ++ bytes) else p).1 ::
            (diskAppend t g bytes).map Prod.fst := rfl
      _ = p.1 :: t.map Prod.fst := by rw [hp, ih]
      _ = (p :: t).map Prod.fst := rfl

theorem alookup_diskAppend_self (d : Disk) (g : Nat) (bytes : List Char) :
    alookup (diskAppend d g bytes) g = (alookup d g).map (· ++ bytes) := by
  induction d with
  | nil => simp [diskAppend, alookup]
  | cons p t ih =>
    by_cases h : p.1 = g
    · simp [diskAppend, alookup, h]
    · simp only [diskAppend, List.map_cons, if_neg h] at ih ⊢
      simp [alookup, h, ih]

theorem alookup_diskAppend_ne (d : Disk) (g g' : Nat) (bytes : List Char)
    (h : g' ≠ g) : alookup (diskAppend d g bytes) g' = alookup d g' := by
  induction d with
  | nil => simp [diskAppend, alookup]
  | cons p t ih =>
    by_cases hp : p.1 = g
    · have : p.1 ≠ g' := by rw [hp]; exact Ne.symm h
      simp only [diskAppend, List.map_cons, if_pos hp] at ih ⊢
      simp [alookup, this, ih]
    · simp only [diskAppend, List.map_cons, if_neg hp] at ih ⊢
      simp [alookup, ih]

/-- Fueled replay of one segment file (`load` in `src/engines/kvs.rs` /
`src/persist.rs`): stream-parse records, tracking byte offsets; `Set`
records index the consumed window, `Rm` records drop the key; the
uncompacted counter collects superseded lengths.  A malformed record
surfaces as a serde error.  The fuel is an upper bound on the byte count;
`loadSeg` instantiates it exactly. -/
def loadSegF (gen : Nat) : Nat → Nat → List Char → Index → Nat → Except KvsError (Index × Nat)
  | 0, _, bytes, idx, unc => if bytes.isEmpty then .ok (idx, unc) else .error .serde
  | fuel + 1, pos, bytes, idx, unc =>
    if bytes.isEmpty then .ok (idx, unc)
    else
      match parseOp bytes with
      | none => .error .serde
      | some (op, rest) =>
        let newPos := pos + (bytes.length - rest.length)
        match op with
        | .Set k _ =>
          loadSegF gen fuel newPos rest (ains idx k ⟨gen, pos, newPos - pos⟩)
            (unc + oldLen idx k)
        | .Rm k =>
          loadSegF gen fuel newPos rest (aerase idx k)
            (unc + oldLen idx k + (newPos - pos))

/-- Replay one segment file from offset 0. -/
def loadSeg (gen : Nat) (bytes : List Char) (idx : Index) (unc : Nat) :
    Except KvsError (Index × Nat) :=
  loadSegF gen bytes.length 0 bytes idx unc

/-- Replay of a list of operations at the operation level: what `load`
computes on a well-formed segment. -/
def loadOps (gen : Nat) : Nat → List Operation → Index → Nat → Index × Nat
  | _, [], idx, unc => (idx, unc)
  | pos, op :: rest, idx, unc =>
    match op with
    | .Set k v =>
      loadOps gen (pos + (encOp (.Set k v)).length) rest
        (ains idx k ⟨gen, pos, (encOp (.Set k v)).length⟩) (unc + oldLen idx k)
    | .Rm k =>
      loadOps gen (pos + (encOp (.Rm k)).length) rest
        (aerase idx k) (unc + oldLen idx k + (encOp (.Rm k)).length)

/-- The index component of `loadOps` (it does not depend on the counter). -/
def loadIdx (gen : Nat) : Nat → List Operation → Index → Index
  | _, [], idx => idx
  | pos, op :: rest, idx =>
    match op with
    | .Set k v =>
      loadIdx gen (pos + (encOp (.Set k v)).length) rest
        (ains idx k ⟨gen, pos, (encOp (.Set k v)).length⟩)
    | .Rm k =>
      loadIdx gen (pos + (encOp (.Rm k)).length) rest (aerase idx k)

theorem loadOps_fst (gen : Nat) :
    ∀ (ops : List Operation) (pos : Nat) (idx : Index) (unc : Nat),
      (loadOps gen pos ops idx unc).1 = loadIdx gen pos ops idx := by
  intro ops
  induction ops with
  | nil => intro pos idx unc; rfl
  | cons op rest ih =>
    intro pos idx unc
    cases op with
    | Set k v => simp [loadOps, loadIdx, ih]
    | Rm k => simp [loadOps, loadIdx, ih]

/-- On a segment that is a concatenation of encoded records, byte-level
replay agrees with operation-level replay. -/
theorem loadSegF_encOps (gen : Nat) :
    ∀ (ops : List Operation) (fuel pos : Nat) (idx : Index) (unc : Nat),
      (encOps ops).length ≤ fuel →
      loadSegF gen fuel pos (encOps ops) idx unc = .ok (loadOps gen pos ops idx unc) := by
  intro ops
  induction ops with
  | nil =>
    intro fuel pos idx unc h
    cases fuel <;> simp [encOps, loadSegF, loadOps]
  | cons op rest ih =>
    intro fuel pos idx unc h
    have hpos := encOp_length_pos op
    have hne : ¬(encOps (op :: rest)).isEmpty := by
      simp only [encOps, List.isEmpty_eq_true, List.append_eq_nil]
      intro ⟨h1, _⟩
      rw [h1] at hpos
      simp at hpos
    match fuel with
    | 0 =>
      exfalso
      simp only [encOps, List.length_append] at h
      omega
    | f + 1 =>
      have hC : encOps (op :: rest) = encOp op ++ encOps rest := rfl
      rw [hC] at hne ⊢
      have hlen : (encOp op ++ encOps rest).length - (encOps rest).length
          = (encOp op).length := by
        simp [List.length_append]
      have hfuel : (encOps rest).length ≤ f := by
        rw [hC] at h
        simp only [List.length_append] at h
        omega
      simp only [loadSegF]
      rw [if_neg hne, parseOp_encOp]
      cases op with
      | Set k v =>
        simp only [loadOps, hlen, Nat.add_sub_cancel_left]
        exact ih f _ _ _ hfuel
      | Rm k =>
        simp only [loadOps, hlen, Nat.add_sub_cancel_left]
        exact ih f _ _ _ hfuel

theorem loadSeg_encOps (gen : Nat) (ops : List Operation) (idx : Index) (unc : Nat) :
    loadSeg gen (encOps ops) idx unc = .ok (loadOps gen 0 ops idx unc) :=
  loadSegF_encOps gen ops _ 0 idx unc (le_refl _)

/-- Replay a list of generations against the directory (the replay loop of
`open`): open each file and replay it in order. -/
def replayGo (d : Disk) : List Nat → Index → Nat → Except KvsError (Index × Nat)
  | [], idx, unc => .ok (idx, unc)
  | g :: gs, idx, unc =>
    match alookup d g with
    | none => .error .io
    | some f =>
      match loadSeg g f idx unc with
      | .error e => .error e
      | .ok p => replayGo d gs p.1 p.2

/-- Replay the whole directory in ascending generation order. -/
def replayDisk (d : Disk) : Except KvsError (Index × Nat) :=
  replayGo d (sortGens d) [] 0

/-- Operation-level replay of a list of segments. -/
def replaySegsAux : List (Nat × List Operation) → Index → Nat → Index × Nat
  | [], idx, unc => (idx, unc)
  | (g, ops) :: rest, idx, unc =>
    let p := loadOps g 0 ops idx unc
    replaySegsAux rest p.1 p.2

/-- Operation-level replay of a list of segments from the empty index. -/
def replaySegs (segs : List (Nat × List Operation)) : Index × Nat :=
  replaySegsAux segs [] 0

theorem replayGo_segs (d : Disk) :
    ∀ (segs : List (Nat × List Operation)) (idx : Index) (unc : Nat),
      (∀ p ∈ segs, alookup d p.1 = some (encOps p.2)) →
      replayGo d (segs.map Prod.fst) idx unc = .ok (replaySegsAux segs idx unc) := by
  intro segs
  induction segs with
  | nil => intro idx unc _; rfl
  | cons p rest ih =>
    intro idx unc hmem
    obtain ⟨g, ops⟩ := p
    have hm : alookup d g = some (encOps ops) := hmem (g, ops) (List.mem_cons_self _ _)
    simp only [List.map_cons, replayGo, hm, loadSeg_encOps, replaySegsAux]
    exact ih _ _ (fun q hq => hmem q (List.mem_cons_of_mem _ hq))

/-! ## The concurrent engine (`src/engines/kvs.rs`)

State and operations of `KvStore`/`KvStoreWriter`.  The writer lock
serializes `set`, `remove` and compaction in the source; a sequential
embedding therefore carries one state.  `writerPos` is
`BufWriterWithPos::pos` of the current append handle (0 at creation of a
fresh segment, advanced by every serialized record). -/

/-- `COMPACTION_THRESHOLD`: 1 MiB of dead bytes triggers compaction. -/
def COMPACTION_THRESHOLD : Nat := 1024 * 1024

/-- Engine state: the data directory, the in-memory index, the writer's
current generation / append offset / dead-byte counter, and the published
safe point. -/
structure KvState where
  disk : Disk
  index : Index
  currentGen : Nat
  writerPos : Nat
  uncompacted : Nat
  safePoint : Nat
deriving DecidableEq

/-- `KvStoreReader::read_operation`: open segment `e.gen`, seek to `e.pos`,
read `e.len` bytes, deserialize one record (the deserializer fails if the
window holds less or more than exactly one record). -/
def readOperation (d : Disk) (e : OperationPos) : Except KvsError Operation :=
  match alookup d e.gen with
  | none => .error .io
  | some f =>
    match parseOp (window f e.pos e.len) with
    | some (op, []) => .ok op
    | some (_, _ :: _) => .error .serde
    | none => .error .serde

/-- `KvStore::get`: index miss returns `None`; otherwise read the located
record; a tombstone there is `UnexpectedCommandType`. -/
def getOp (s : KvState) (key : String) : Except KvsError (Option String) :=
  match alookup s.index key with
  | none => .ok none
  | some e =>
    match readOperation s.disk e with
    | .error err => .error err
    | .ok (.Set _ v) => .ok (some v)
    | .ok (.Rm _) => .error .unexpectedCommandType

/-- The write-and-index part of `KvStoreWriter::set` (before the
compaction-threshold check): append the serialized record, flush, account
the superseded record's length, store `(current_gen, pos..new_pos)`. -/
def setRaw (s : KvState) (key value : String) : KvState :=
  let bytes := encOp (.Set key value)
  { s with
    disk := diskAppend s.disk s.currentGen bytes
    writerPos := s.writerPos + bytes.length
    uncompacted := s.uncompacted + oldLen s.index key
    index := ains s.index key ⟨s.currentGen, s.writerPos, bytes.length⟩ }

/-- The copy loop of `KvStoreWriter::compact`: for each index entry, copy
its window into the compaction segment and repoint the entry at the copy. -/
def compactFold (cgen : Nat) :
    List (String × OperationPos) → Disk → Index → Nat → Except KvsError (Disk × Index)
  | [], d, idx, _ => .ok (d, idx)
  | (k, e) :: rest, d, idx, newPos =>
    match alookup d e.gen with
    | none => .error .io
    | some f =>
      let w := window f e.pos e.len
      compactFold cgen rest (diskAppend d cgen w)
        (ains idx k ⟨cgen, newPos, w.length⟩) (newPos + w.length)

/-- Deletion of the stale segment files (`gen < compaction_gen`). -/
def diskEraseBelow (d : Disk) (cgen : Nat) : Disk :=
  d.filter (fun p => decide (cgen ≤ p.1))

/-- `KvStoreWriter::compact`: switch the writer to generation
`current_gen + 2`, copy all live records into generation `current_gen + 1`,
publish it as the safe point, delete every older segment, reset the
dead-byte counter. -/
def compactOp (s : KvState) : Except KvsError KvState :=
  let cgen := s.currentGen + 1
  let ngen := s.currentGen + 2
  let d2 := diskCreate (diskCreate s.disk ngen) cgen
  match compactFold cgen s.index d2 s.index 0 with
  | .error e => .error e
  | .ok p =>
    .ok { disk := diskEraseBelow p.1 cgen
          index := p.2
          currentGen := ngen
          writerPos := 0
          uncompacted := 0
          safePoint := cgen }

/-- `KvStoreWriter::set` with its compaction-threshold check. -/
def setOp (s : KvState) (key value : String) : Except KvsError KvState :=
  let s1 := setRaw s key value
  if s1.uncompacted > COMPACTION_THRESHOLD then compactOp s1 else .ok s1

/-- `KvStoreWriter::remove`: absent key fails `KeyNotFound` without
writing; otherwise append the tombstone, flush, drop the index entry,
account both the superseded record and the tombstone itself, then check
the threshold. -/
def removeOp (s : KvState) (key : String) : Except KvsError KvState :=
  match alookup s.index key with
  | none => .error .keyNotFound
  | some old =>
    let bytes := encOp (.Rm key)
    let s1 : KvState :=
      { s with
        disk := diskAppend s.disk s.currentGen bytes
        writerPos := s.writerPos + bytes.length
        index := aerase s.index key
        uncompacted := s.uncompacted + old.len + bytes.length }
    if s1.uncompacted > COMPACTION_THRESHOLD then compactOp s1 else .ok s1

/-- `KvStore::open`: scan and sort the `*.log` generations, replay each in
order, choose `current_gen = max + 1` (1 on an empty directory), create
the fresh current segment, start with safe point 0. -/
def openDisk (d : Disk) : Except KvsError KvState :=
  match replayDisk d with
  | .error e => .error e
  | .ok p =>
    let g := (sortGens d).getLast?.getD 0 + 1
    .ok { disk := diskCreate d g
          index := p.1
          currentGen := g
          writerPos := 0
          uncompacted := p.2
          safePoint := 0 }

/-- A client-visible mutating command. -/
inductive KVCmd where
  | set (key value : String)
  | rm (key : String)
deriving DecidableEq

/-- Apply one command through the engine. -/
def applyCmdS (s : KvState) : KVCmd → Except KvsError KvState
  | .set k v => setOp s k v
  | .rm k => removeOp s k

/-- Run a command sequence through the engine, stopping at the first error. -/
def runOps : KvState → List KVCmd → Except KvsError KvState
  | s, [] => .ok s
  | s, c :: cs =>
    match applyCmdS s c with
    | .error e => .error e
    | .ok s' => runOps s' cs

/-! ## The logical model and the replay correspondence -/

/-- The logical effect of one record on the key → value map. -/
def applyModelOp (m : Model) : Operation → Model
  | .Set k v => ains m k v
  | .Rm k => aerase m k

/-- Fold a record list over the model. -/
def modelOps (m : Model) (ops : List Operation) : Model :=
  ops.foldl applyModelOp m

/-- All records of a segment list, in replay order. -/
def opsOfSegs : List (Nat × List Operation) → List Operation
  | [] => []
  | p :: t => p.2 ++ opsOfSegs t

/-- The logical contents determined by a segment list. -/
def modelSegs (segs : List (Nat × List Operation)) : Model :=
  modelOps [] (opsOfSegs segs)

/-- The key written by a command. -/
def cmdKey : KVCmd → String
  | .set k _ => k
  | .rm k => k

/-- The logical effect of one command. -/
def applyCmdM (m : Model) : KVCmd → Model
  | .set k v => ains m k v
  | .rm k => aerase m k

/-- The value implied by the final write to `k` in a command sequence:
`some v` if the last command touching `k` is `set k v`, `none` if it is a
remove or if no command touches `k`. -/
def specLast (cmds : List KVCmd) (k : String) : Option String :=
  match cmds.reverse.find? (fun c => decide (cmdKey c = k)) with
  | some (.set _ v) => some v
  | some (.rm _) => none
  | none => none

/-- A live index entry is valid: its segment is listed, the window lies
within the file, and the window is exactly the encoding of a `Set` of this
key with value `v`. -/
def entryOK (segs : List (Nat × List Operation)) (k : String) (e : OperationPos)
    (v : String) : Prop :=
  ∃ ops, alookup segs e.gen = some ops ∧
    e.pos + e.len ≤ (encOps ops).length ∧
    window (encOps ops) e.pos e.len = encOp (.Set k v)

/-- Pointwise correspondence of an index entry and a model entry. -/
def corrAt (segs : List (Nat × List Operation)) (k : String) :
    Option OperationPos → Option String → Prop
  | none, none => True
  | some e, some v => entryOK segs k e v
  | _, _ => False

/-- The index realizes the model, with every entry valid against `segs`. -/
def corr (segs : List (Nat × List Operation)) (idx : Index) (m : Model) : Prop :=
  ∀ k, corrAt segs k (alookup idx k) (alookup m k)

theorem window_concat (A B C : List Char) :
    window (A ++ B ++ C) A.length B.length = B := by
  unfold window
  rw [List.append_assoc, List.drop_left, List.take_left]

/-- Replaying a record suffix of one segment preserves the correspondence:
every entry it installs points at the exact window of its record. -/
theorem loadOps_corr (segsAll : List (Nat × List Operation)) (gen : Nat)
    (fullOps : List Operation) (hfull : alookup segsAll gen = some fullOps) :
    ∀ (rest done : List Operation) (idx : Index) (m : Model) (unc : Nat),
      fullOps = done ++ rest →
      corr segsAll idx m →
      corr segsAll (loadOps gen (encOps done).length rest idx unc).1
        (modelOps m rest) := by
  intro rest
  induction rest with
  | nil =>
    intro done idx m unc _ hc
    simpa [loadOps, modelOps] using hc
  | cons op rest' ih =>
    intro done idx m unc hsplit hc
    have hfile : encOps fullOps = encOps done ++ encOp op ++ encOps rest' := by
      rw [hsplit, encOps_append, List.append_assoc]
      rfl
    cases op with
    | Set k v =>
      have hstep : corr segsAll (ains idx k ⟨gen, (encOps done).length,
          (encOp (.Set k v)).length⟩) (ains m k v) := by
        intro k'
        by_cases hk : k' = k
        · subst hk
          rw [alookup_ains_self, alookup_ains_self]
          refine ⟨fullOps, hfull, ?_, ?_⟩
          · rw [hfile]
            simp [List.length_append]
          · rw [hfile]
            exact window_concat _ _ _
        · rw [alookup_ains_ne _ _ _ _ hk, alookup_ains_ne _ _ _ _ hk]
          exact hc k'
      have := ih (done ++ [.Set k v]) _ _ (unc + oldLen idx k)
        (by rw [hsplit, List.append_assoc]; rfl) hstep
      rw [encOps_append] at this
      simpa [loadOps, modelOps, encOps, applyModelOp] using this
    | Rm k =>
      have hstep : corr segsAll (aerase idx k) (aerase m k) := by
        intro k'
        by_cases hk : k' = k
        · subst hk
          rw [alookup_aerase_self, alookup_aerase_self]
          trivial
        · rw [alookup_aerase_ne _ _ _ hk, alookup_aerase_ne _ _ _ hk]
          exact hc k'
      have := ih (done ++ [.Rm k]) _ _
        (unc + oldLen idx k + (encOp (.Rm k)).length)
        (by rw [hsplit, List.append_assoc]; rfl) hstep
      rw [encOps_append] at this
      simpa [loadOps, modelOps, encOps, applyModelOp] using this

/-- Correspondence across a list of segments. -/
theorem replaySegsAux_corr (segsAll : List (Nat × List Operation)) :
    ∀ (todo : List (Nat × List Operation)) (idx : Index) (m : Model) (unc : Nat),
      (∀ p ∈ todo, alookup segsAll p.1 = some p.2) →
      corr segsAll idx m →
      corr segsAll (replaySegsAux todo idx unc).1 (modelOps m (opsOfSegs todo)) := by
  intro todo
  induction todo with
  | nil =>
    intro idx m unc _ hc
    simpa [replaySegsAux, opsOfSegs, modelOps] using hc
  | cons p rest ih =>
    intro idx m unc hmem hc
    obtain ⟨g, ops⟩ := p
    have h1 : corr segsAll (loadOps g 0 ops idx unc).1 (modelOps m ops) := by
      have := loadOps_corr segsAll g ops (hmem (g, ops) (List.mem_cons_self _ _))
        ops [] idx m unc rfl hc
      simpa [encOps] using this
    have h2 := ih (loadOps g 0 ops idx unc).1 (modelOps m ops)
      (loadOps g 0 ops idx unc).2
      (fun q hq => hmem q (List.mem_cons_of_mem _ hq)) h1
    simpa [replaySegsAux, opsOfSegs, modelOps, List.foldl_append] using h2

/-- The replayed index realizes the logical contents of the segments, and
every entry of it is valid. -/
theorem replay_corr (segs : List (Nat × List Operation))
    (hnd : (segs.map Prod.fst).Nodup) :
    corr segs (replaySegs segs).1 (modelSegs segs) := by
  have := replaySegsAux_corr segs segs [] [] 0
    (fun p hp => alookup_of_mem_nodup hnd hp)
    (fun k => by simp [alookup, corrAt])
  simpa [replaySegs, modelSegs, modelOps] using this

/-- `get` realizes the model on any state whose index and directory are
governed by a correspondence. -/
theorem corr_get (s : KvState) (segs : List (Nat × List Operation)) (m : Model)
    (hfiles : ∀ g, alookup s.disk g = (alookup segs g).map encOps)
    (hcorr : ∀ k, corrAt segs k (alookup s.index k) (alookup m k)) (k : String) :
    getOp s k = .ok (alookup m k) := by
  have hck := hcorr k
  cases hi : alookup s.index k with
  | none =>
    rw [hi] at hck
    cases hm : alookup m k with
    | none => simp [getOp, hi, hm]
    | some v => rw [hm] at hck; exact absurd hck (by simp [corrAt])
  | some e =>
    rw [hi] at hck
    cases hm : alookup m k with
    | none => rw [hm] at hck; exact absurd hck (by simp [corrAt])
    | some v =>
      rw [hm] at hck
      obtain ⟨ops, hseg, hbound, hwin⟩ := hck
      have hrt := parseOp_encOp (.Set k v) []
      rw [List.append_nil] at hrt
      simp only [getOp, hi, readOperation, hfiles e.gen, hseg, Option.map_some',
        hwin, hrt, hm]

/-! ## Helper lemmas for the reachability invariant -/

theorem pairwise_lt_nodup [Preorder κ] {l : List κ} (h : l.Pairwise (· < ·)) :
    l.Nodup :=
  h.imp ne_of_lt

theorem alookup_append_single_ne [DecidableEq κ] (l : List (κ × α)) (x : κ × α)
    (g : κ) (hg : g ≠ x.1) : alookup (l ++ [x]) g = alookup l g := by
  cases hv : alookup l g with
  | some v => exact alookup_append_left _ hv
  | none =>
    rw [alookup_append_right _ hv]
    have hx : ¬x.1 = g := fun h => hg h.symm
    simp [alookup, hx]

theorem alookup_diskCreate_ne (d : Disk) (g g' : Nat) (hg : g' ≠ g) :
    alookup (diskCreate d g) g' = alookup d g' := by
  unfold diskCreate
  split
  · rfl
  · exact alookup_append_single_ne d (g, []) g' hg

theorem alookup_diskCreate_self (d : Disk) (g : Nat) (h : alookup d g = none) :
    alookup (diskCreate d g) g = some [] := by
  unfold diskCreate
  rw [h]
  simp only [Option.isSome_none, Bool.false_eq_true, if_false]
  rw [alookup_append_right _ h]
  simp [alookup]

theorem diskCreate_of_none (d : Disk) (g : Nat) (h : alookup d g = none) :
    diskCreate d g = d ++ [(g, [])] := by
  unfold diskCreate
  rw [h]
  rfl

theorem diskAppend_nil (d : Disk) (g : Nat) : diskAppend d g [] = d := by
  induction d with
  | nil => rfl
  | cons p t ih =>
    unfold diskAppend at ih ⊢
    simp only [List.map_cons, ih]
    by_cases h : p.1 = g
    · rw [if_pos h]
      simp
    · rw [if_neg h]

theorem diskAppend_diskAppend (d : Disk) (g : Nat) (a b : List Char) :
    diskAppend (diskAppend d g a) g b = diskAppend d g (a ++ b) := by
  induction d with
  | nil => rfl
  | cons p t ih =>
    unfold diskAppend at ih ⊢
    simp only [List.map_cons, List.map_map] at ih ⊢
    by_cases h : p.1 = g <;> simp [h, ih]

theorem alookup_diskEraseBelow (d : Disk) (cgen g : Nat) :
    alookup (diskEraseBelow d cgen) g
      = if cgen ≤ g then alookup d g else none := by
  induction d with
  | nil => simp [diskEraseBelow, alookup]
  | cons p t ih =>
    by_cases hp : cgen ≤ p.1
    · simp only [diskEraseBelow, List.filter_cons] at ih ⊢
      simp only [decide_eq_true_eq, hp, if_pos]
      by_cases hpg : p.1 = g
      · subst hpg
        simp [alookup, hp]
      · simp [alookup, hpg, ih]
    · simp only [diskEraseBelow, List.filter_cons] at ih ⊢
      simp only [decide_eq_true_eq, hp, if_neg, if_false]
      by_cases hpg : p.1 = g
      · subst hpg
        rw [ih]
        simp [alookup, hp]
      · simp [alookup, hpg, ih]

theorem map_fst_diskEraseBelow (d : Disk) (cgen : Nat) :
    (diskEraseBelow d cgen).map Prod.fst
      = (d.map Prod.fst).filter (fun g => decide (cgen ≤ g)) := by
  induction d with
  | nil => rfl
  | cons p t ih =>
    simp only [diskEraseBelow, List.filter_cons, List.map_cons] at ih ⊢
    by_cases hp : cgen ≤ p.1 <;> simp [hp, ih]

theorem opsOfSegs_concat (l : List (Nat × List Operation)) (x : Nat × List Operation) :
    opsOfSegs (l ++ [x]) = opsOfSegs l ++ x.2 := by
  induction l with
  | nil => simp [opsOfSegs]
  | cons p t ih => simp [opsOfSegs, ih]

theorem encOps_concat (l : List Operation) (op : Operation) :
    encOps (l ++ [op]) = encOps l ++ encOp op := by
  rw [encOps_append]
  simp [encOps]

theorem replaySegsAux_append (l₁ l₂ : List (Nat × List Operation)) :
    ∀ (idx : Index) (unc : Nat),
      replaySegsAux (l₁ ++ l₂) idx unc =
        replaySegsAux l₂ (replaySegsAux l₁ idx unc).1 (replaySegsAux l₁ idx unc).2 := by
  induction l₁ with
  | nil => intro idx unc; rfl
  | cons p t ih =>
    intro idx unc
    obtain ⟨g, ops⟩ := p
    simp only [List.cons_append, replaySegsAux]
    exact ih _ _

theorem loadOps_append (gen : Nat) :
    ∀ (l₁ l₂ : List Operation) (pos : Nat) (idx : Index) (unc : Nat),
      loadOps gen pos (l₁ ++ l₂) idx unc =
        loadOps gen (pos + (encOps l₁).length) l₂
          (loadOps gen pos l₁ idx unc).1 (loadOps gen pos l₁ idx unc).2 := by
  intro l₁
  induction l₁ with
  | nil =>
    intro l₂ pos idx unc
    simp [loadOps, encOps]
  | cons op t ih =>
    intro l₂ pos idx unc
    cases op with
    | Set k v =>
      simp only [List.cons_append, loadOps, List.append_eq]
      rw [ih]
      have : pos + (encOp (.Set k v)).length + (encOps t).length
          = pos + (encOps (Operation.Set k v :: t)).length := by
        show _ = pos + (encOp (.Set k v) ++ encOps t).length
        simp [List.length_append]
        omega
      rw [this]
    | Rm k =>
      simp only [List.cons_append, loadOps, List.append_eq]
      rw [ih]
      have : pos + (encOp (.Rm k)).length + (encOps t).length
          = pos + (encOps (Operation.Rm k :: t)).length := by
        show _ = pos + (encOp (.Rm k) ++ encOps t).length
        simp [List.length_append]
        omega
      rw [this]

theorem loadOps_sorted (gen : Nat) :
    ∀ (ops : List Operation) (pos : Nat) (idx : Index) (unc : Nat),
      (idx.map Prod.fst).Pairwise (· < ·) →
      (((loadOps gen pos ops idx unc).1).map Prod.fst).Pairwise (· < ·) := by
  intro ops
  induction ops with
  | nil => intro pos idx unc h; exact h
  | cons op t ih =>
    intro pos idx unc h
    cases op with
    | Set k v => exact ih _ _ _ (pairwise_keys_ains _ _ _ h)
    | Rm k => exact ih _ _ _ (pairwise_keys_aerase _ _ h)

theorem replaySegsAux_sorted :
    ∀ (segs : List (Nat × List Operation)) (idx : Index) (unc : Nat),
      (idx.map Prod.fst).Pairwise (· < ·) →
      (((replaySegsAux segs idx unc).1).map Prod.fst).Pairwise (· < ·) := by
  intro segs
  induction segs with
  | nil => intro idx unc h; exact h
  | cons p t ih =>
    intro idx unc h
    obtain ⟨g, ops⟩ := p
    exact ih _ _ (loadOps_sorted g ops 0 idx unc h)

/-- The key a record writes or erases. -/
def opKey : Operation → String
  | .Set k _ => k
  | .Rm k => k

/-- `loadIdx` lookups only depend on the starting index through lookups at
keys the record list never touches. -/
theorem loadIdx_congr (gen : Nat) :
    ∀ (ops : List Operation) (pos : Nat) (idx₁ idx₂ : Index) (k : String),
      (k ∈ ops.map opKey ∨ alookup idx₁ k = alookup idx₂ k) →
      alookup (loadIdx gen pos ops idx₁) k = alookup (loadIdx gen pos ops idx₂) k := by
  intro ops
  induction ops with
  | nil =>
    intro pos idx₁ idx₂ k h
    rcases h with h | h
    · simp at h
    · exact h
  | cons op t ih =>
    intro pos idx₁ idx₂ k h
    cases op with
    | Set k0 v0 =>
      simp only [loadIdx]
      apply ih
      by_cases hmem : k ∈ t.map opKey
      · exact Or.inl hmem
      · right
        by_cases hk : k = k0
        · subst hk
          rw [alookup_ains_self, alookup_ains_self]
        · rw [alookup_ains_ne _ _ _ _ hk, alookup_ains_ne _ _ _ _ hk]
          rcases h with h | h
          · simp only [List.map_cons, List.mem_cons, opKey] at h
            rcases h with h | h
            · exact absurd h hk
            · exact absurd h hmem
          · exact h
    | Rm k0 =>
      simp only [loadIdx]
      apply ih
      by_cases hmem : k ∈ t.map opKey
      · exact Or.inl hmem
      · right
        by_cases hk : k = k0
        · subst hk
          rw [alookup_aerase_self, alookup_aerase_self]
        · rw [alookup_aerase_ne _ _ _ hk, alookup_aerase_ne _ _ _ hk]
          rcases h with h | h
          · simp only [List.map_cons, List.mem_cons, opKey] at h
            rcases h with h | h
            · exact absurd h hk
            · exact absurd h hmem
          · exact h

theorem loadIdx_sorted (gen : Nat) :
    ∀ (ops : List Operation) (pos : Nat) (idx : Index),
      (idx.map Prod.fst).Pairwise (· < ·) →
      ((loadIdx gen pos ops idx).map Prod.fst).Pairwise (· < ·) := by
  intro ops
  induction ops with
  | nil => intro pos idx h; exact h
  | cons op t ih =>
    intro pos idx h
    cases op with
    | Set k v => exact ih _ _ (pairwise_keys_ains _ _ _ h)
    | Rm k => exact ih _ _ (pairwise_keys_aerase _ _ h)

/-- The `Set` records compaction writes: one per live index entry, in
index order, carrying that key's current value. -/
def liveOps (vals : String → String) (l : List (String × OperationPos)) :
    List Operation :=
  l.map (fun p => .Set p.1 (vals p.1))

theorem liveOps_keys (vals : String → String) (l : List (String × OperationPos)) :
    (liveOps vals l).map opKey = l.map Prod.fst := by
  induction l with
  | nil => rfl
  | cons p t ih =>
    simp only [liveOps, List.map_cons, opKey] at ih ⊢
    rw [ih]

theorem modelOps_liveOps (vals : String → String) :
    ∀ (l : List (String × OperationPos)) (m : Model),
      (l.map Prod.fst).Nodup →
      ∀ k, alookup (modelOps m (liveOps vals l)) k
        = if k ∈ l.map Prod.fst then some (vals k) else alookup m k := by
  intro l
  induction l with
  | nil =>
    intro m _ k
    simp [liveOps, modelOps]
  | cons p t ih =>
    intro m hnd k
    simp only [List.map_cons, List.nodup_cons] at hnd
    have hstep : modelOps m (liveOps vals (p :: t))
        = modelOps (ains m p.1 (vals p.1)) (liveOps vals t) := rfl
    rw [hstep, ih _ hnd.2 k]
    by_cases hmem : k ∈ t.map Prod.fst
    · simp [hmem, List.mem_cons]
    · by_cases hk : k = p.1
      · subst hk
        simp [hmem, alookup_ains_self]
      · rw [alookup_ains_ne _ _ _ _ hk]
        simp [hmem, hk]

/-! ## The reachability invariant

`WF s si lo` says: the directory of `s` is exactly the segment list
`si ++ [(currentGen, lo)]` (strictly ascending generations, each file the
concatenation of its records' encodings, `currentGen` the largest and the
one receiving appends at offset `writerPos`), and the in-memory index is
lookup-equal to the replay of those segments. -/

/-- The full segment list: the rotated segments and the current one. -/
def segsOf (si : List (Nat × List Operation)) (g : Nat) (lo : List Operation) :
    List (Nat × List Operation) :=
  si ++ [(g, lo)]

/-- The invariant tying an engine state to its ghost segment list. -/
structure WF (s : KvState) (si : List (Nat × List Operation)) (lo : List Operation) :
    Prop where
  sorted : ((segsOf si s.currentGen lo).map Prod.fst).Pairwise (· < ·)
  keysPerm : (s.disk.map Prod.fst).Perm ((segsOf si s.currentGen lo).map Prod.fst)
  files : ∀ g, alookup s.disk g = (alookup (segsOf si s.currentGen lo) g).map encOps
  wpos : s.writerPos = (encOps lo).length
  idxEq : ∀ k, alookup s.index k = alookup (replaySegs (segsOf si s.currentGen lo)).1 k
  idxSorted : (s.index.map Prod.fst).Pairwise (· < ·)

theorem segsOf_keys (si : List (Nat × List Operation)) (g : Nat) (lo : List Operation) :
    (segsOf si g lo).map Prod.fst = si.map Prod.fst ++ [g] := by
  simp [segsOf]

theorem wf_lt_cur {s : KvState} {si lo} (h : WF s si lo) :
    ∀ g ∈ si.map Prod.fst, g < s.currentGen := by
  have hs := h.sorted
  rw [segsOf_keys, List.pairwise_append] at hs
  intro g hg
  exact hs.2.2 g hg s.currentGen (by simp)

theorem wf_cur_notin_si {s : KvState} {si lo} (h : WF s si lo) :
    s.currentGen ∉ si.map Prod.fst :=
  fun hmem => lt_irrefl _ (wf_lt_cur h _ hmem)

theorem wf_segs_nodup {s : KvState} {si lo} (h : WF s si lo) :
    ((segsOf si s.currentGen lo).map Prod.fst).Nodup :=
  pairwise_lt_nodup h.sorted

theorem wf_gen_le {s : KvState} {si lo} (h : WF s si lo) :
    ∀ g ∈ (segsOf si s.currentGen lo).map Prod.fst, g ≤ s.currentGen := by
  rw [segsOf_keys]
  intro g hg
  rcases List.mem_append.mp hg with hg | hg
  · exact le_of_lt (wf_lt_cur h g hg)
  · simp at hg
    exact le_of_eq hg

theorem wf_seg_cur {s : KvState} {si lo} (h : WF s si lo) :
    alookup (segsOf si s.currentGen lo) s.currentGen = some lo := by
  unfold segsOf
  rw [alookup_append_right _ ((alookup_eq_none_iff _ _).mpr (wf_cur_notin_si h))]
  simp [alookup]

theorem wf_disk_cur {s : KvState} {si lo} (h : WF s si lo) :
    alookup s.disk s.currentGen = some (encOps lo) := by
  rw [h.files, wf_seg_cur h]
  rfl

theorem wf_seg_none_of_gt {s : KvState} {si lo} (h : WF s si lo) (g : Nat)
    (hg : s.currentGen < g) : alookup (segsOf si s.currentGen lo) g = none :=
  (alookup_eq_none_iff _ _).mpr
    (fun hmem => absurd (wf_gen_le h g hmem) (not_le.mpr hg))

theorem wf_disk_none_of_gt {s : KvState} {si lo} (h : WF s si lo) (g : Nat)
    (hg : s.currentGen < g) : alookup s.disk g = none := by
  rw [h.files, wf_seg_none_of_gt h g hg]
  rfl

theorem wf_disk_keys_lt {s : KvState} {si lo} (h : WF s si lo) :
    ∀ g ∈ s.disk.map Prod.fst, g ≤ s.currentGen := by
  intro g hg
  exact wf_gen_le h g (h.keysPerm.mem_iff.mp hg)

theorem wf_sortGens {s : KvState} {si lo} (h : WF s si lo) :
    sortGens s.disk = (segsOf si s.currentGen lo).map Prod.fst := by
  have hsorted1 : List.Sorted (· ≤ ·) (sortGens s.disk) :=
    List.sorted_insertionSort _ _
  have hsorted2 : List.Sorted (· ≤ ·) ((segsOf si s.currentGen lo).map Prod.fst) :=
    h.sorted.imp le_of_lt
  exact List.eq_of_perm_of_sorted
    ((List.perm_insertionSort _ _).trans h.keysPerm) hsorted1 hsorted2

theorem wf_seg_files {s : KvState} {si lo} (h : WF s si lo) :
    ∀ p ∈ segsOf si s.currentGen lo, alookup s.disk p.1 = some (encOps p.2) := by
  intro p hp
  rw [h.files p.1, alookup_of_mem_nodup (wf_segs_nodup h) hp]
  rfl

theorem wf_replay {s : KvState} {si lo} (h : WF s si lo) :
    replayDisk s.disk = .ok (replaySegs (segsOf si s.currentGen lo)) := by
  unfold replayDisk replaySegs
  rw [wf_sortGens h]
  exact replayGo_segs s.disk _ [] 0 (wf_seg_files h)

theorem wf_corr {s : KvState} {si lo} (h : WF s si lo) :
    ∀ k, corrAt (segsOf si s.currentGen lo) k (alookup s.index k)
      (alookup (modelSegs (segsOf si s.currentGen lo)) k) := by
  intro k
  rw [h.idxEq k]
  exact replay_corr _ (wf_segs_nodup h) k

/-- On a well-formed state, `get` returns exactly the model's value. -/
theorem wf_get {s : KvState} {si lo} (h : WF s si lo) (k : String) :
    getOp s k = .ok (alookup (modelSegs (segsOf si s.currentGen lo)) k) :=
  corr_get s _ _ h.files (wf_corr h) k

theorem ains_alookup_congr [LinearOrder κ] [DecidableEq κ] (A B : List (κ × α))
    (k : κ) (e : α) (h : ∀ k', alookup A k' = alookup B k') :
    ∀ k', alookup (ains A k e) k' = alookup (ains B k e) k' := by
  intro k'
  by_cases hk : k' = k
  · subst hk
    rw [alookup_ains_self, alookup_ains_self]
  · rw [alookup_ains_ne _ _ _ _ hk, alookup_ains_ne _ _ _ _ hk]
    exact h k'

theorem aerase_alookup_congr [DecidableEq κ] (A B : List (κ × α)) (k : κ)
    (h : ∀ k', alookup A k' = alookup B k') :
    ∀ k', alookup (aerase A k) k' = alookup (aerase B k) k' := by
  intro k'
  by_cases hk : k' = k
  · subst hk
    rw [alookup_aerase_self, alookup_aerase_self]
  · rw [alookup_aerase_ne _ _ _ hk, alookup_aerase_ne _ _ _ hk]
    exact h k'

/-- Appending a record to the current segment applies its logical effect. -/
theorem modelSegs_concat (si : List (Nat × List Operation)) (g : Nat)
    (lo : List Operation) (op : Operation) :
    modelSegs (segsOf si g (lo ++ [op]))
      = applyModelOp (modelSegs (segsOf si g lo)) op := by
  unfold modelSegs segsOf
  rw [opsOfSegs_concat, opsOfSegs_concat]
  unfold modelOps
  rw [show opsOfSegs si ++ (lo ++ [op]) = (opsOfSegs si ++ lo) ++ [op] by
    rw [List.append_assoc]]
  rw [List.foldl_append]
  rfl

/-- Opening an empty directory yields the pristine state. -/
theorem openDisk_empty : openDisk [] = .ok ⟨[(1, [])], [], 1, 0, 0, 0⟩ := rfl

theorem wf_openEmpty : WF ⟨[(1, [])], [], 1, 0, 0, 0⟩ [] [] := by
  refine ⟨?_, ?_, ?_, ?_, ?_, ?_⟩
  · simp [segsOf]
  · simp [segsOf]
  · intro g
    by_cases hg : g = 1
    · subst hg
      simp [alookup, segsOf, encOps]
    · have : ¬(1 : Nat) = g := fun hh => hg hh.symm
      simp [alookup, segsOf, this]
  · rfl
  · intro k
    rfl
  · simp

/-- Reopening a well-formed directory: replay succeeds, rebuilds a
lookup-equal index, rotates to a fresh current segment above every
existing generation, and leaves the logical contents unchanged. -/
theorem wf_reopen {s : KvState} {si lo} (h : WF s si lo) :
    ∃ s', openDisk s.disk = .ok s' ∧
      WF s' (segsOf si s.currentGen lo) [] ∧
      s'.currentGen = s.currentGen + 1 ∧
      (∀ k, alookup s'.index k = alookup s.index k) ∧
      (∀ k, alookup (modelSegs (segsOf (segsOf si s.currentGen lo) s'.currentGen [])) k
        = alookup (modelSegs (segsOf si s.currentGen lo)) k) := by
  have hreplay := wf_replay h
  have hlast : (sortGens s.disk).getLast?.getD 0 = s.currentGen := by
    rw [wf_sortGens h, segsOf_keys]
    simp
  have hnotin : alookup s.disk (s.currentGen + 1) = none :=
    wf_disk_none_of_gt h _ (Nat.lt_succ_self _)
  have hd' : diskCreate s.disk (s.currentGen + 1) = s.disk ++ [(s.currentGen + 1, [])] :=
    diskCreate_of_none _ _ hnotin
  refine ⟨{ disk := diskCreate s.disk (s.currentGen + 1)
            index := (replaySegs (segsOf si s.currentGen lo)).1
            currentGen := s.currentGen + 1
            writerPos := 0
            uncompacted := (replaySegs (segsOf si s.currentGen lo)).2
            safePoint := 0 }, ?_, ?_, rfl, ?_, ?_⟩
  · simp only [openDisk, hreplay, hlast]
  · have hidx' : ∀ k,
        alookup (replaySegs (segsOf (segsOf si s.currentGen lo) (s.currentGen + 1) [])).1 k
          = alookup (replaySegs (segsOf si s.currentGen lo)).1 k := by
      intro k
      unfold replaySegs segsOf
      rw [replaySegsAux_append]
      rfl
    refine ⟨?_, ?_, ?_, rfl, ?_, ?_⟩
    · rw [segsOf_keys]
      rw [List.pairwise_append]
      refine ⟨h.sorted, by simp, ?_⟩
      intro a ha b hb
      simp only [List.mem_singleton] at hb
      subst hb
      have ha' : a ∈ (segsOf si s.currentGen lo).map Prod.fst := by
        rw [segsOf_keys] at ha ⊢
        exact ha
      exact Nat.lt_succ_of_le (wf_gen_le h a ha')
    · rw [hd']
      simp only [List.map_append, List.map_cons, List.map_nil]
      rw [segsOf_keys]
      exact h.keysPerm.append (List.Perm.refl _)
    · intro g
      by_cases hg : g = s.currentGen + 1
      · subst hg
        rw [hd', alookup_append_right _ hnotin]
        have hsegnone : alookup (si ++ [(s.currentGen, lo)]) (s.currentGen + 1) = none :=
          wf_seg_none_of_gt h (s.currentGen + 1) (Nat.lt_succ_self _)
        unfold segsOf
        rw [alookup_append_right _ hsegnone]
        simp [alookup, encOps]
      · rw [hd', alookup_append_single_ne _ _ _ hg]
        unfold segsOf
        rw [alookup_append_single_ne _ (s.currentGen + 1, []) _ hg]
        exact h.files g
    · intro k
      rw [hidx' k]
    · exact replaySegsAux_sorted _ [] 0 (by simp)
  · intro k
    rw [h.idxEq k]
  · intro k
    unfold modelSegs segsOf
    rw [opsOfSegs_concat]
    simp

theorem replay_concat_set (si : List (Nat × List Operation)) (g : Nat)
    (lo : List Operation) (k v : String) :
    (replaySegs (segsOf si g (lo ++ [.Set k v]))).1
      = ains (replaySegs (segsOf si g lo)).1 k
          ⟨g, (encOps lo).length, (encOp (.Set k v)).length⟩ := by
  unfold replaySegs segsOf
  rw [replaySegsAux_append, replaySegsAux_append]
  simp only [replaySegsAux, loadOps_append, loadOps]
  simp

theorem replay_concat_rm (si : List (Nat × List Operation)) (g : Nat)
    (lo : List Operation) (k : String) :
    (replaySegs (segsOf si g (lo ++ [.Rm k]))).1
      = aerase (replaySegs (segsOf si g lo)).1 k := by
  unfold replaySegs segsOf
  rw [replaySegsAux_append, replaySegsAux_append]
  simp only [replaySegsAux, loadOps_append, loadOps]

theorem wf_seg_concat_cur {s : KvState} {si lo} (h : WF s si lo) (lo' : List Operation) :
    alookup (segsOf si s.currentGen lo') s.currentGen = some lo' := by
  unfold segsOf
  rw [alookup_append_right _ ((alookup_eq_none_iff _ _).mpr (wf_cur_notin_si h))]
  simp [alookup]

theorem wf_seg_concat_ne {si : List (Nat × List Operation)} (cur : Nat)
    (lo' : List Operation) (g : Nat) (hg : g ≠ cur) :
    alookup (segsOf si cur lo') g = alookup si g := by
  unfold segsOf
  exact alookup_append_single_ne si (cur, lo') g hg

/-- The write-and-index step of `set` preserves the invariant, extending
the current segment's record list by the new `Set` record. -/
theorem wf_setRaw {s : KvState} {si lo} (h : WF s si lo) (k v : String) :
    WF (setRaw s k v) si (lo ++ [.Set k v]) := by
  have hb := encOps_concat lo (.Set k v)
  have f1 : ((segsOf si s.currentGen (lo ++ [.Set k v])).map Prod.fst).Pairwise (· < ·) := by
    rw [segsOf_keys]
    have hs := h.sorted
    rw [segsOf_keys] at hs
    exact hs
  have f2 : ((diskAppend s.disk s.currentGen (encOp (.Set k v))).map Prod.fst).Perm
      ((segsOf si s.currentGen (lo ++ [.Set k v])).map Prod.fst) := by
    rw [diskAppend_keys, segsOf_keys]
    have hp := h.keysPerm
    rw [segsOf_keys] at hp
    exact hp
  have f3 : ∀ g, alookup (diskAppend s.disk s.currentGen (encOp (.Set k v))) g
      = (alookup (segsOf si s.currentGen (lo ++ [.Set k v])) g).map encOps := by
    intro g
    by_cases hg : g = s.currentGen
    · subst hg
      rw [alookup_diskAppend_self, wf_disk_cur h, wf_seg_concat_cur h (lo ++ [Operation.Set k v])]
      simp [hb]
    · rw [alookup_diskAppend_ne _ _ _ _ hg,
        wf_seg_concat_ne s.currentGen (lo ++ [Operation.Set k v]) g hg,
        h.files g, wf_seg_concat_ne s.currentGen lo g hg]
  have f4 : s.writerPos + (encOp (.Set k v)).length
      = (encOps (lo ++ [.Set k v])).length := by
    rw [h.wpos, hb, List.length_append]
  have f5 : ∀ k', alookup (ains s.index k
        ⟨s.currentGen, s.writerPos, (encOp (.Set k v)).length⟩) k'
      = alookup (replaySegs (segsOf si s.currentGen (lo ++ [.Set k v]))).1 k' := by
    intro k'
    rw [replay_concat_set si s.currentGen lo k v, h.wpos]
    exact ains_alookup_congr _ _ _ _ h.idxEq k'
  have f6 := pairwise_keys_ains s.index k
    ⟨s.currentGen, s.writerPos, (encOp (.Set k v)).length⟩ h.idxSorted
  exact ⟨f1, f2, f3, f4, f5, f6⟩

/-- The write-and-drop step of `remove` on a present key preserves the
invariant, extending the current segment by the tombstone. -/
theorem wf_removeRaw {s : KvState} {si lo} (h : WF s si lo) (k : String)
    (old : OperationPos) :
    WF { s with
         disk := diskAppend s.disk s.currentGen (encOp (.Rm k))
         writerPos := s.writerPos + (encOp (.Rm k)).length
         index := aerase s.index k
         uncompacted := s.uncompacted + old.len + (encOp (.Rm k)).length }
      si (lo ++ [.Rm k]) := by
  have hb := encOps_concat lo (.Rm k)
  have f1 : ((segsOf si s.currentGen (lo ++ [.Rm k])).map Prod.fst).Pairwise (· < ·) := by
    rw [segsOf_keys]
    have hs := h.sorted
    rw [segsOf_keys] at hs
    exact hs
  have f2 : ((diskAppend s.disk s.currentGen (encOp (.Rm k))).map Prod.fst).Perm
      ((segsOf si s.currentGen (lo ++ [.Rm k])).map Prod.fst) := by
    rw [diskAppend_keys, segsOf_keys]
    have hp := h.keysPerm
    rw [segsOf_keys] at hp
    exact hp
  have f3 : ∀ g, alookup (diskAppend s.disk s.currentGen (encOp (.Rm k))) g
      = (alookup (segsOf si s.currentGen (lo ++ [.Rm k])) g).map encOps := by
    intro g
    by_cases hg : g = s.currentGen
    · subst hg
      rw [alookup_diskAppend_self, wf_disk_cur h, wf_seg_concat_cur h (lo ++ [Operation.Rm k])]
      simp [hb]
    · rw [alookup_diskAppend_ne _ _ _ _ hg,
        wf_seg_concat_ne s.currentGen (lo ++ [Operation.Rm k]) g hg,
        h.files g, wf_seg_concat_ne s.currentGen lo g hg]
  have f4 : s.writerPos + (encOp (.Rm k)).length
      = (encOps (lo ++ [.Rm k])).length := by
    rw [h.wpos, hb, List.length_append]
  have f5 : ∀ k', alookup (aerase s.index k) k'
      = alookup (replaySegs (segsOf si s.currentGen (lo ++ [.Rm k]))).1 k' := by
    intro k'
    rw [replay_concat_rm si s.currentGen lo k]
    exact aerase_alookup_congr _ _ _ h.idxEq k'
  have f6 := pairwise_keys_aerase s.index k h.idxSorted
  exact ⟨f1, f2, f3, f4, f5, f6⟩

/-- The compaction copy loop, run over entries whose windows are exact
encoded `Set` records, writes the concatenation of those records and
replays them into the index. -/
theorem compactFold_spec (cgen : Nat) (dBase : Disk) (vals : String → String) :
    ∀ (rest : List (String × OperationPos)) (accB : List Char) (idx : Index),
      (∀ p ∈ rest, p.2.gen ≠ cgen ∧
        ∃ f, alookup dBase p.2.gen = some f ∧
          window f p.2.pos p.2.len = encOp (.Set p.1 (vals p.1))) →
      compactFold cgen rest (diskAppend dBase cgen accB) idx accB.length
        = .ok (diskAppend dBase cgen (accB ++ encOps (liveOps vals rest)),
               loadIdx cgen accB.length (liveOps vals rest) idx) := by
  intro rest
  induction rest with
  | nil =>
    intro accB idx _
    simp [compactFold, liveOps, encOps, loadIdx]
  | cons p rest2 ih =>
    intro accB idx hmem
    obtain ⟨k, e⟩ := p
    obtain ⟨hne, f, hf, hw⟩ := hmem (k, e) (List.mem_cons_self _ _)
    have hread : alookup (diskAppend dBase cgen accB) e.gen = some f := by
      rw [alookup_diskAppend_ne _ _ _ _ hne]
      exact hf
    simp only [compactFold, hread, hw]
    rw [diskAppend_diskAppend]
    have hlen : accB.length + (encOp (.Set k (vals k))).length
        = (accB ++ encOp (.Set k (vals k))).length := by
      simp [List.length_append]
    rw [hlen]
    rw [ih (accB ++ encOp (.Set k (vals k)))
      (ains idx k ⟨cgen, accB.length, (encOp (.Set k (vals k))).length⟩)
      (fun q hq => hmem q (List.mem_cons_of_mem _ hq))]
    simp only [liveOps, List.map_cons, encOps, loadIdx, List.append_assoc,
      List.length_append]

/-- After the compaction copy loop, every index entry points at the
compaction generation. -/
theorem loadIdx_liveOps_gen (cgen : Nat) (vals : String → String) :
    ∀ (l : List (String × OperationPos)) (pos : Nat) (idx : Index),
      (∀ k e, alookup idx k = some e → e.gen = cgen ∨ k ∈ l.map Prod.fst) →
      ∀ k e', alookup (loadIdx cgen pos (liveOps vals l) idx) k = some e' →
        e'.gen = cgen := by
  intro l
  induction l with
  | nil =>
    intro pos idx hyp k e' hk
    rcases hyp k e' hk with h | h
    · exact h
    · simp at h
  | cons p l2 ih =>
    intro pos idx hyp k e' hk
    obtain ⟨k0, e0⟩ := p
    simp only [liveOps, List.map_cons] at hk
    refine ih _ _ ?_ k e' hk
    intro k1 e1 h1
    by_cases hk1 : k1 = k0
    · subst hk1
      rw [alookup_ains_self] at h1
      exact Or.inl (by
        obtain rfl := Option.some.inj h1
        rfl)
    · rw [alookup_ains_ne _ _ _ _ hk1] at h1
      rcases hyp k1 e1 h1 with h | h
      · exact Or.inl h
      · simp only [List.map_cons, List.mem_cons] at h
        rcases h with h | h
        · exact absurd h hk1
        · exact Or.inr h

theorem filter_lt_nil (c : Nat) {L : List Nat} (hall : ∀ g ∈ L, g < c) :
    L.filter (fun g => decide (c ≤ g)) = [] := by
  induction L with
  | nil => rfl
  | cons a t ih =>
    have ha := hall a (List.mem_cons_self _ _)
    simp only [List.filter_cons]
    rw [if_neg (by simp; omega)]
    exact ih (fun g hg => hall g (List.mem_cons_of_mem _ hg))

/-- Compaction succeeds on a well-formed state.  It installs
`current_gen + 2` as the new current generation, rewrites every live
record into generation `current_gen + 1`, publishes that generation as
the safe point, deletes all older segments, resets the dead-byte counter,
and leaves the logical contents unchanged. -/
theorem wf_compact {s : KvState} {si lo} (h : WF s si lo) :
    ∃ s' si' lo', compactOp s = .ok s' ∧ WF s' si' lo' ∧
      s'.currentGen = s.currentGen + 2 ∧
      s'.safePoint = s.currentGen + 1 ∧
      s'.uncompacted = 0 ∧
      (∀ k e', alookup s'.index k = some e' → e'.gen = s.currentGen + 1) ∧
      (∀ k, alookup (modelSegs (segsOf si' s'.currentGen lo')) k
        = alookup (modelSegs (segsOf si s.currentGen lo)) k) := by
  have hnd_idx : (s.index.map Prod.fst).Nodup := pairwise_lt_nodup h.idxSorted
  have hdisk_ngen : alookup s.disk (s.currentGen + 2) = none :=
    wf_disk_none_of_gt h _ (by omega)
  have hdisk_cgen : alookup s.disk (s.currentGen + 1) = none :=
    wf_disk_none_of_gt h _ (by omega)
  have hd1 : diskCreate s.disk (s.currentGen + 2) = s.disk ++ [(s.currentGen + 2, [])] :=
    diskCreate_of_none _ _ hdisk_ngen
  have hd1_cgen : alookup (diskCreate s.disk (s.currentGen + 2)) (s.currentGen + 1)
      = none := by
    rw [alookup_diskCreate_ne _ _ _ (by omega)]
    exact hdisk_cgen
  have hd2eq : diskCreate (diskCreate s.disk (s.currentGen + 2)) (s.currentGen + 1)
      = s.disk ++ [(s.currentGen + 2, [])] ++ [(s.currentGen + 1, [])] := by
    rw [diskCreate_of_none _ _ hd1_cgen, hd1]
  have hfoldhyp : ∀ p ∈ s.index, p.2.gen ≠ s.currentGen + 1 ∧
      ∃ f, alookup (diskCreate (diskCreate s.disk (s.currentGen + 2))
          (s.currentGen + 1)) p.2.gen = some f ∧
        window f p.2.pos p.2.len = encOp (.Set p.1
          ((alookup (modelSegs (segsOf si s.currentGen lo)) p.1).getD "")) := by
    intro p hp
    have hlk : alookup s.index p.1 = some p.2 := alookup_of_mem_nodup hnd_idx hp
    have hc := wf_corr h p.1
    rw [hlk] at hc
    cases hm : alookup (modelSegs (segsOf si s.currentGen lo)) p.1 with
    | none => rw [hm] at hc; exact absurd hc (by simp [corrAt])
    | some v =>
      rw [hm] at hc
      obtain ⟨ops, hseg, hbound, hwin⟩ := hc
      have hgenmem : p.2.gen ∈ (segsOf si s.currentGen lo).map Prod.fst :=
        List.mem_map.mpr ⟨(p.2.gen, ops), mem_of_alookup_eq_some hseg, rfl⟩
      have hgle : p.2.gen ≤ s.currentGen := wf_gen_le h _ hgenmem
      refine ⟨by omega, encOps ops, ?_, ?_⟩
      · rw [alookup_diskCreate_ne _ _ _ (by omega),
          alookup_diskCreate_ne _ _ _ (by omega), h.files, hseg]
        rfl
      · simpa using hwin
  have hfold := compactFold_spec (s.currentGen + 1)
    (diskCreate (diskCreate s.disk (s.currentGen + 2)) (s.currentGen + 1))
    (fun k => (alookup (modelSegs (segsOf si s.currentGen lo)) k).getD "")
    s.index [] s.index hfoldhyp
  rw [diskAppend_nil] at hfold
  simp only [List.length_nil, List.nil_append] at hfold
  refine ⟨{ disk := diskEraseBelow
              (diskAppend (diskCreate (diskCreate s.disk (s.currentGen + 2))
                (s.currentGen + 1)) (s.currentGen + 1)
                (encOps (liveOps (fun k =>
                  (alookup (modelSegs (segsOf si s.currentGen lo)) k).getD "") s.index)))
              (s.currentGen + 1)
            index := loadIdx (s.currentGen + 1) 0
              (liveOps (fun k =>
                (alookup (modelSegs (segsOf si s.currentGen lo)) k).getD "") s.index)
              s.index
            currentGen := s.currentGen + 2
            writerPos := 0
            uncompacted := 0
            safePoint := s.currentGen + 1 },
    [(s.currentGen + 1, liveOps (fun k =>
      (alookup (modelSegs (segsOf si s.currentGen lo)) k).getD "") s.index)],
    [], ?_, ?_, rfl, rfl, rfl, ?_, ?_⟩
  · simp only [compactOp, hfold]
  · refine ⟨?_, ?_, ?_, rfl, ?_, ?_⟩
    · simp [segsOf]
    · rw [map_fst_diskEraseBelow, diskAppend_keys, hd2eq]
      simp only [List.map_append, List.map_cons, List.map_nil, List.filter_append]
      rw [filter_lt_nil (s.currentGen + 1) (fun g hg => by
        have := wf_disk_keys_lt h g hg
        omega)]
      have h1 : List.filter (fun g => decide (s.currentGen + 1 ≤ g))
          [s.currentGen + 2] = [s.currentGen + 2] := by
        simp only [List.filter_cons, List.filter_nil]
        rw [if_pos (by simp)]
      have h2 : List.filter (fun g => decide (s.currentGen + 1 ≤ g))
          [s.currentGen + 1] = [s.currentGen + 1] := by
        simp only [List.filter_cons, List.filter_nil]
        rw [if_pos (by simp)]
      rw [h1, h2]
      rw [segsOf_keys]
      simp only [List.map_cons, List.map_nil, List.nil_append]
      exact List.Perm.swap _ _ _
    · intro g
      rw [alookup_diskEraseBelow]
      by_cases hg1 : g = s.currentGen + 1
      · subst hg1
        rw [if_pos (le_refl _)]
        rw [alookup_diskAppend_self]
        have hcur : alookup (diskCreate (diskCreate s.disk (s.currentGen + 2))
            (s.currentGen + 1)) (s.currentGen + 1) = some [] := by
          rw [hd2eq, List.append_assoc]
          rw [alookup_append_right _ hdisk_cgen]
          simp [alookup, show ¬(s.currentGen + 2 = s.currentGen + 1) by omega]
        rw [hcur]
        simp [segsOf, alookup]
      · by_cases hg2 : g = s.currentGen + 2
        · subst hg2
          rw [if_pos (by omega)]
          rw [alookup_diskAppend_ne _ _ _ _ (by omega), hd2eq]
          rw [alookup_append_single_ne _ _ _ (by omega : s.currentGen + 2 ≠ s.currentGen + 1)]
          rw [alookup_append_right _ hdisk_ngen]
          simp [segsOf, alookup, encOps,
            show ¬(s.currentGen + 1 = s.currentGen + 2) by omega]
        · have hrhs : alookup (segsOf [(s.currentGen + 1,
              liveOps (fun k =>
                (alookup (modelSegs (segsOf si s.currentGen lo)) k).getD "") s.index)]
              (s.currentGen + 2) []) g = none := by
            have hh1 : ¬(s.currentGen + 1 = g) := fun hh => hg1 hh.symm
            have hh2 : ¬(s.currentGen + 2 = g) := fun hh => hg2 hh.symm
            simp [segsOf, alookup, hh1, hh2]
          rw [hrhs]
          by_cases hle : s.currentGen + 1 ≤ g
          · rw [if_pos hle]
            rw [alookup_diskAppend_ne _ _ _ _ hg1, hd2eq]
            rw [alookup_append_single_ne _ _ _ hg1]
            rw [alookup_append_single_ne _ _ _ hg2]
            rw [wf_disk_none_of_gt h g (by omega)]
            rfl
          · rw [if_neg hle]
            rfl
    · intro k
      have hrep : (replaySegs (segsOf [(s.currentGen + 1,
          liveOps (fun k =>
            (alookup (modelSegs (segsOf si s.currentGen lo)) k).getD "") s.index)]
          (s.currentGen + 2) [])).1
          = loadIdx (s.currentGen + 1) 0
            (liveOps (fun k =>
              (alookup (modelSegs (segsOf si s.currentGen lo)) k).getD "") s.index)
            [] := by
        unfold replaySegs segsOf
        simp only [List.cons_append, List.nil_append, replaySegsAux, loadOps]
        rw [loadOps_fst]
      rw [hrep]
      apply loadIdx_congr
      by_cases hmem : k ∈ s.index.map Prod.fst
      · exact Or.inl (by rw [liveOps_keys]; exact hmem)
      · right
        rw [(alookup_eq_none_iff _ _).mpr hmem]
        rfl
    · exact loadIdx_sorted _ _ _ _ h.idxSorted
  · intro k e' hk
    refine loadIdx_liveOps_gen (s.currentGen + 1) _ s.index 0 s.index ?_ k e' hk
    intro k1 e1 h1
    exact Or.inr (List.mem_map.mpr ⟨(k1, e1), mem_of_alookup_eq_some h1, rfl⟩)
  · intro k
    have hops : opsOfSegs (segsOf [(s.currentGen + 1,
        liveOps (fun k =>
          (alookup (modelSegs (segsOf si s.currentGen lo)) k).getD "") s.index)]
        (s.currentGen + 2) [])
        = liveOps (fun k =>
            (alookup (modelSegs (segsOf si s.currentGen lo)) k).getD "") s.index := by
      simp [segsOf, opsOfSegs]
    show alookup (modelSegs (segsOf [(s.currentGen + 1,
        liveOps (fun k =>
          (alookup (modelSegs (segsOf si s.currentGen lo)) k).getD "") s.index)]
        (s.currentGen + 2) [])) k = _
    rw [show modelSegs (segsOf [(s.currentGen + 1,
        liveOps (fun k =>
          (alookup (modelSegs (segsOf si s.currentGen lo)) k).getD "") s.index)]
        (s.currentGen + 2) [])
      = modelOps [] (opsOfSegs (segsOf [(s.currentGen + 1,
          liveOps (fun k =>
            (alookup (modelSegs (segsOf si s.currentGen lo)) k).getD "") s.index)]
          (s.currentGen + 2) [])) from rfl]
    rw [hops]
    rw [modelOps_liveOps _ s.index [] hnd_idx k]
    by_cases hmem : k ∈ s.index.map Prod.fst
    · rw [if_pos hmem]
      cases hl : alookup s.index k with
      | none => exact absurd ((alookup_eq_none_iff _ _).mp hl) (by simp [hmem])
      | some e =>
        have hc := wf_corr h k
        rw [hl] at hc
        cases hm : alookup (modelSegs (segsOf si s.currentGen lo)) k with
        | none => rw [hm] at hc; exact absurd hc (by simp [corrAt])
        | some v => simp [hm]
    · rw [if_neg hmem]
      cases hm : alookup (modelSegs (segsOf si s.currentGen lo)) k with
      | none => rfl
      | some v =>
        have hc := wf_corr h k
        rw [hm, (alookup_eq_none_iff _ _).mpr hmem] at hc
        exact absurd hc (by simp [corrAt])

/-- `set` always succeeds on a well-formed state (possibly compacting) and
applies its logical effect. -/
theorem wf_set {s : KvState} {si lo} (h : WF s si lo) (k v : String) :
    ∃ s' si' lo', setOp s k v = .ok s' ∧ WF s' si' lo' ∧
      (∀ k', alookup (modelSegs (segsOf si' s'.currentGen lo')) k'
        = alookup (ains (modelSegs (segsOf si s.currentGen lo)) k v) k') := by
  have h1 := wf_setRaw h k v
  have hmodel1 : modelSegs (segsOf si (setRaw s k v).currentGen (lo ++ [.Set k v]))
      = ains (modelSegs (segsOf si s.currentGen lo)) k v := by
    show modelSegs (segsOf si s.currentGen (lo ++ [.Set k v])) = _
    rw [modelSegs_concat]
    rfl
  by_cases hthr : (setRaw s k v).uncompacted > COMPACTION_THRESHOLD
  · obtain ⟨s', si', lo', hok, hwf, _, _, _, _, hmod⟩ := wf_compact h1
    refine ⟨s', si', lo', ?_, hwf, ?_⟩
    · simp only [setOp]
      rw [if_pos hthr]
      exact hok
    · intro k'
      rw [hmod k', hmodel1]
  · refine ⟨setRaw s k v, si, lo ++ [.Set k v], ?_, h1, ?_⟩
    · simp only [setOp]
      rw [if_neg hthr]
    · intro k'
      rw [hmodel1]

/-- `remove` of an absent key fails `KeyNotFound` (and, returning an
error, leaves no successor state: nothing is appended and nothing in the
index or the counter changes). -/
theorem removeOp_absent {s : KvState} {k : String}
    (hk : alookup s.index k = none) :
    removeOp s k = .error .keyNotFound := by
  simp only [removeOp, hk]

/-- `remove` of a present key succeeds on a well-formed state (possibly
compacting) and erases the key. -/
theorem wf_remove_present {s : KvState} {si lo} (h : WF s si lo) (k : String)
    (old : OperationPos) (hk : alookup s.index k = some old) :
    ∃ s' si' lo', removeOp s k = .ok s' ∧ WF s' si' lo' ∧
      (∀ k', alookup (modelSegs (segsOf si' s'.currentGen lo')) k'
        = alookup (aerase (modelSegs (segsOf si s.currentGen lo)) k) k') := by
  have h1 := wf_removeRaw h k old
  have hmodel1 : modelSegs (segsOf si s.currentGen (lo ++ [.Rm k]))
      = aerase (modelSegs (segsOf si s.currentGen lo)) k := by
    rw [modelSegs_concat]
    rfl
  by_cases hthr : ({ s with
      disk := diskAppend s.disk s.currentGen (encOp (.Rm k))
      writerPos := s.writerPos + (encOp (.Rm k)).length
      index := aerase s.index k
      uncompacted := s.uncompacted + old.len + (encOp (.Rm k)).length } :
        KvState).uncompacted > COMPACTION_THRESHOLD
  · obtain ⟨s', si', lo', hok, hwf, _, _, _, _, hmod⟩ := wf_compact h1
    refine ⟨s', si', lo', ?_, hwf, ?_⟩
    · simp only [removeOp, hk]
      rw [if_pos hthr]
      exact hok
    · intro k'
      rw [hmod k']
      show alookup (modelSegs (segsOf si s.currentGen (lo ++ [.Rm k]))) k' = _
      rw [hmodel1]
  · refine ⟨_, si, lo ++ [.Rm k], ?_, h1, ?_⟩
    · simp only [removeOp, hk]
      rw [if_neg hthr]
    · intro k'
      show alookup (modelSegs (segsOf si s.currentGen (lo ++ [.Rm k]))) k' = _
      rw [hmodel1]

/-- States reachable through the engine's public operations: open on an
empty directory, then any sequence of `set`, `remove`, compaction, and
clean close / reopen (`get` does not change the state). -/
inductive Reachable : KvState → Prop where
  | init : ∀ s, openDisk [] = .ok s → Reachable s
  | set : ∀ s k v s', Reachable s → setOp s k v = .ok s' → Reachable s'
  | rm : ∀ s k s', Reachable s → removeOp s k = .ok s' → Reachable s'
  | compact : ∀ s s', Reachable s → compactOp s = .ok s' → Reachable s'
  | reopen : ∀ s s', Reachable s → openDisk s.disk = .ok s' → Reachable s'

/-- Every reachable state is well-formed. -/
theorem reachable_wf {s : KvState} (h : Reachable s) : ∃ si lo, WF s si lo := by
  induction h with
  | init s hs =>
    rw [openDisk_empty] at hs
    obtain rfl := Except.ok.inj hs
    exact ⟨[], [], wf_openEmpty⟩
  | set s k v s' hr hstep ih =>
    obtain ⟨si, lo, hwf⟩ := ih
    obtain ⟨s'', si', lo', hok, hwf', _⟩ := wf_set hwf k v
    rw [hok] at hstep
    obtain rfl := Except.ok.inj hstep
    exact ⟨si', lo', hwf'⟩
  | rm s k s' hr hstep ih =>
    obtain ⟨si, lo, hwf⟩ := ih
    cases hk : alookup s.index k with
    | none =>
      rw [removeOp_absent hk] at hstep
      exact absurd hstep (by simp)
    | some old =>
      obtain ⟨s'', si', lo', hok, hwf', _⟩ := wf_remove_present hwf k old hk
      rw [hok] at hstep
      obtain rfl := Except.ok.inj hstep
      exact ⟨si', lo', hwf'⟩
  | compact s s' hr hstep ih =>
    obtain ⟨si, lo, hwf⟩ := ih
    obtain ⟨s'', si', lo', hok, hwf', _⟩ := wf_compact hwf
    rw [hok] at hstep
    obtain rfl := Except.ok.inj hstep
    exact ⟨si', lo', hwf'⟩
  | reopen s s' hr hstep ih =>
    obtain ⟨si, lo, hwf⟩ := ih
    obtain ⟨s'', hok, hwf', _⟩ := wf_reopen hwf
    rw [hok] at hstep
    obtain rfl := Except.ok.inj hstep
    exact ⟨_, _, hwf'⟩

theorem foldl_applyCmdM_congr :
    ∀ (cmds : List KVCmd) (A B : Model),
      (∀ k, alookup A k = alookup B k) →
      ∀ k, alookup (cmds.foldl applyCmdM A) k = alookup (cmds.foldl applyCmdM B) k := by
  intro cmds
  induction cmds with
  | nil => intro A B h k; exact h k
  | cons c cs ih =>
    intro A B h k
    cases c with
    | set k0 v0 =>
      exact ih (ains A k0 v0) (ains B k0 v0) (ains_alookup_congr A B k0 v0 h) k
    | rm k0 =>
      exact ih (aerase A k0) (aerase B k0) (aerase_alookup_congr A B k0 h) k

/-- Running a command sequence preserves well-formedness and applies each
command's logical effect in order. -/
theorem run_preserve :
    ∀ (cmds : List KVCmd) (s : KvState) (si : List (Nat × List Operation))
      (lo : List Operation), WF s si lo →
      ∀ (s' : KvState), runOps s cmds = .ok s' →
      ∃ si' lo', WF s' si' lo' ∧
        (∀ k, alookup (modelSegs (segsOf si' s'.currentGen lo')) k
          = alookup (cmds.foldl applyCmdM (modelSegs (segsOf si s.currentGen lo))) k) := by
  intro cmds
  induction cmds with
  | nil =>
    intro s si lo hwf s' h
    simp only [runOps] at h
    injection h with h2
    subst h2
    exact ⟨si, lo, hwf, fun k => rfl⟩
  | cons c cs ih =>
    intro s si lo hwf s' h
    simp only [runOps] at h
    cases c with
    | set k v =>
      obtain ⟨s1, si1, lo1, hok, hwf1, hmod1⟩ := wf_set hwf k v
      have hc : applyCmdS s (.set k v) = .ok s1 := hok
      simp only [hc] at h
      obtain ⟨si', lo', hwf', hmod'⟩ := ih s1 si1 lo1 hwf1 s' h
      refine ⟨si', lo', hwf', ?_⟩
      intro k'
      rw [hmod' k']
      exact foldl_applyCmdM_congr cs _ _ hmod1 k'
    | rm k =>
      cases hk : alookup s.index k with
      | none =>
        have hc : applyCmdS s (.rm k) = .error .keyNotFound := removeOp_absent hk
        simp only [hc] at h
        simp at h
      | some old =>
        obtain ⟨s1, si1, lo1, hok, hwf1, hmod1⟩ := wf_remove_present hwf k old hk
        have hc : applyCmdS s (.rm k) = .ok s1 := hok
        simp only [hc] at h
        obtain ⟨si', lo', hwf', hmod'⟩ := ih s1 si1 lo1 hwf1 s' h
        refine ⟨si', lo', hwf', ?_⟩
        intro k'
        rw [hmod' k']
        exact foldl_applyCmdM_congr cs _ _ hmod1 k'

/-- The model fold computes exactly the value implied by the final write
to each key. -/
theorem foldl_applyCmdM_specLast (cmds : List KVCmd) (k : String) :
    alookup (cmds.foldl applyCmdM []) k = specLast cmds k := by
  induction cmds using List.reverseRecOn with
  | nil => rfl
  | append_singleton cs c ih =>
    rw [List.foldl_append]
    simp only [List.foldl_cons, List.foldl_nil]
    cases c with
    | set k0 v0 =>
      by_cases hk : k = k0
      · subst hk
        rw [show applyCmdM (cs.foldl applyCmdM []) (.set k v0)
            = ains (cs.foldl applyCmdM []) k v0 from rfl]
        rw [alookup_ains_self]
        simp only [specLast, List.reverse_append, List.reverse_cons, List.reverse_nil,
          List.nil_append, List.cons_append, List.find?_cons]
        rw [show (decide (cmdKey (.set k v0) = k)) = true by simp [cmdKey]]
      · rw [show applyCmdM (cs.foldl applyCmdM []) (.set k0 v0)
            = ains (cs.foldl applyCmdM []) k0 v0 from rfl]
        rw [alookup_ains_ne _ _ _ _ hk, ih]
        simp only [specLast, List.reverse_append, List.reverse_cons, List.reverse_nil,
          List.nil_append, List.cons_append, List.find?_cons]
        rw [show (decide (cmdKey (.set k0 v0) = k)) = false by
          simp [cmdKey]
          exact fun hkk => hk hkk.symm]
    | rm k0 =>
      by_cases hk : k = k0
      · subst hk
        rw [show applyCmdM (cs.foldl applyCmdM []) (.rm k)
            = aerase (cs.foldl applyCmdM []) k from rfl]
        rw [alookup_aerase_self]
        simp only [specLast, List.reverse_append, List.reverse_cons, List.reverse_nil,
          List.nil_append, List.cons_append, List.find?_cons]
        rw [show (decide (cmdKey (.rm k) = k)) = true by simp [cmdKey]]
      · rw [show applyCmdM (cs.foldl applyCmdM []) (.rm k0)
            = aerase (cs.foldl applyCmdM []) k0 from rfl]
        rw [alookup_aerase_ne _ _ _ hk, ih]
        simp only [specLast, List.reverse_append, List.reverse_cons, List.reverse_nil,
          List.nil_append, List.cons_append, List.find?_cons]
        rw [show (decide (cmdKey (.rm k0) = k)) = false by
          simp [cmdKey]
          exact fun hkk => hk hkk.symm]

/-! ## The single-threaded engine (`src/kv.rs`)

`KvStore` of `src/kv.rs` keeps a `HashMap` of open readers keyed by
generation; `get` and `compact` fetch the reader with
`.expect("Cannot find log reader")`, which panics if it is absent.  The
reader map is therefore part of the state (`readers`, as its key set),
and the panic is modelled as a distinguished error value. -/

/-- Errors of the single-threaded engine: a `KvsError`, or the
`expect("Cannot find log reader")` panic. -/
inductive LiteErr where
  | kv (e : KvsError)
  | panic
deriving DecidableEq

/-- State of `src/kv.rs`'s `KvStore`: directory, registered reader
generations, index, current generation, append offset, dead-byte counter. -/
structure LiteState where
  disk : Disk
  readers : List Nat
  index : Index
  currentGen : Nat
  writerPos : Nat
  uncompacted : Nat
deriving DecidableEq

/-- `KvStore::open` (`src/kv.rs`): replay every segment, registering a
reader for each, then create the fresh current segment via
`new_log_file`, which registers its reader too. -/
def openLite (d : Disk) : Except KvsError LiteState :=
  match replayDisk d with
  | .error e => .error e
  | .ok p =>
    let g := (sortGens d).getLast?.getD 0 + 1
    .ok { disk := diskCreate d g
          readers := sortGens d ++ [g]
          index := p.1
          currentGen := g
          writerPos := 0
          uncompacted := p.2 }

/-- A read through the cached reader map: `expect` panics when no reader
is registered for the generation. -/
def liteRead (s : LiteState) (e : OperationPos) : Except LiteErr Operation :=
  if e.gen ∈ s.readers then
    match alookup s.disk e.gen with
    | none => .error (.kv .io)
    | some f =>
      match parseOp (window f e.pos e.len) with
      | some (op, []) => .ok op
      | some (_, _ :: _) => .error (.kv .serde)
      | none => .error (.kv .serde)
  else .error .panic

/-- `KvStore::get` (`src/kv.rs`). -/
def liteGet (s : LiteState) (key : String) : Except LiteErr (Option String) :=
  match alookup s.index key with
  | none => .ok none
  | some e =>
    match liteRead s e with
    | .error err => .error err
    | .ok (.Set _ v) => .ok (some v)
    | .ok (.Rm _) => .error (.kv .unexpectedCommandType)

/-- The copy loop of `KvStore::compact` (`src/kv.rs`): each entry's
reader is fetched with `expect` (panic when absent), its window copied
into the compaction segment, the entry repointed. -/
def liteCompactFold (cgen : Nat) (rs : List Nat) :
    List (String × OperationPos) → Disk → Index → Nat → Except LiteErr (Disk × Index)
  | [], d, idx, _ => .ok (d, idx)
  | (k, e) :: rest, d, idx, newPos =>
    if e.gen ∈ rs then
      match alookup d e.gen with
      | none => .error (.kv .io)
      | some f =>
        let w := window f e.pos e.len
        liteCompactFold cgen rs rest (diskAppend d cgen w)
          (ains idx k ⟨cgen, newPos, w.length⟩) (newPos + w.length)
    else .error .panic

/-- `KvStore::compact` (`src/kv.rs`): rotate the writer to
`current_gen + 2` and the compaction segment to `current_gen + 1` (both
registering readers via `new_log_file`), copy the live records, then
drop the readers whose generation is below the compaction generation and
delete their files (`fs::remove_file` propagates an error on a missing
file). -/
def compactLite (s : LiteState) : Except LiteErr LiteState :=
  let cgen := s.currentGen + 1
  let ngen := s.currentGen + 2
  let r2 := (s.readers ++ [ngen]) ++ [cgen]
  let d2 := diskCreate (diskCreate s.disk ngen) cgen
  match liteCompactFold cgen r2 s.index d2 s.index 0 with
  | .error e => .error e
  | .ok p =>
    let stale := r2.filter (fun g => decide (g < cgen))
    if stale.all (fun g => (alookup p.1 g).isSome) then
      .ok { disk := p.1.filter (fun q => decide (q.1 ∉ stale))
            readers := r2.filter (fun g => decide (¬g < cgen))
            index := p.2
            currentGen := ngen
            writerPos := 0
            uncompacted := 0 }
    else .error (.kv .io)

/-- `KvStore::set` (`src/kv.rs`): append, flush, index; only the
superseded record's length is added to the counter. -/
def setLite (s : LiteState) (key value : String) : Except LiteErr LiteState :=
  let bytes := encOp (.Set key value)
  let s1 : LiteState :=
    { s with
      disk := diskAppend s.disk s.currentGen bytes
      writerPos := s.writerPos + bytes.length
      uncompacted := s.uncompacted + oldLen s.index key
      index := ains s.index key ⟨s.currentGen, s.writerPos, bytes.length⟩ }
  if s1.uncompacted > COMPACTION_THRESHOLD then compactLite s1 else .ok s1

/-- `KvStore::remove` (`src/kv.rs`): absent keys fail `KeyNotFound`;
otherwise the tombstone is appended and only the superseded `Set`
record's length is added to the dead-byte counter (unlike the concurrent
engine, the tombstone's own length is not counted). -/
def removeLite (s : LiteState) (key : String) : Except LiteErr LiteState :=
  match alookup s.index key with
  | none => .error (.kv .keyNotFound)
  | some old =>
    let bytes := encOp (.Rm key)
    let s1 : LiteState :=
      { s with
        disk := diskAppend s.disk s.currentGen bytes
        writerPos := s.writerPos + bytes.length
        index := aerase s.index key
        uncompacted := s.uncompacted + old.len }
    if s1.uncompacted > COMPACTION_THRESHOLD then compactLite s1 else .ok s1

/-- States of the single-threaded engine reachable from `open` on any
directory via its public operations. -/
inductive LiteReachable : LiteState → Prop where
  | openStep : ∀ d s, openLite d = .ok s → LiteReachable s
  | set : ∀ s k v s', LiteReachable s → setLite s k v = .ok s' → LiteReachable s'
  | rm : ∀ s k s', LiteReachable s → removeLite s k = .ok s' → LiteReachable s'
  | compact : ∀ s s', LiteReachable s → compactLite s = .ok s' → LiteReachable s'

/-- The reader-map invariant of `src/kv.rs`: index keys are sorted
(`BTreeMap`), every generation referenced by an index entry has a
registered reader, and the current generation has one. -/
structure LiteInv (s : LiteState) : Prop where
  idxSorted : (s.index.map Prod.fst).Pairwise (· < ·)
  entriesGens : ∀ k e, alookup s.index k = some e → e.gen ∈ s.readers
  curReader : s.currentGen ∈ s.readers

theorem loadSegF_gens (gen : Nat) :
    ∀ (fuel pos : Nat) (bytes : List Char) (idx : Index) (unc : Nat)
      (q : Index × Nat),
      loadSegF gen fuel pos bytes idx unc = .ok q →
      ∀ (k : String) (e : OperationPos),
        alookup q.1 k = some e → e.gen = gen ∨ alookup idx k = some e := by
  intro fuel
  induction fuel with
  | zero =>
    intro pos bytes idx unc q h k e he
    by_cases hb : bytes.isEmpty
    · simp only [loadSegF] at h
      rw [if_pos hb] at h
      injection h with h2
      subst h2
      exact Or.inr he
    · simp only [loadSegF] at h
      rw [if_neg hb] at h
      simp at h
  | succ f ih =>
    intro pos bytes idx unc q h k e he
    by_cases hb : bytes.isEmpty
    · simp only [loadSegF] at h
      rw [if_pos hb] at h
      injection h with h2
      subst h2
      exact Or.inr he
    · simp only [loadSegF] at h
      rw [if_neg hb] at h
      rcases hp : parseOp bytes with _ | ⟨⟨k0, v0⟩ | k0, rest⟩
      · simp only [hp] at h
        simp at h
      · simp only [hp] at h
        rcases ih _ _ _ _ _ h k e he with hg | hlk
        · exact Or.inl hg
        · by_cases hk : k = k0
          · subst hk
            rw [alookup_ains_self] at hlk
            cases hlk
            exact Or.inl rfl
          · rw [alookup_ains_ne _ _ _ _ hk] at hlk
            exact Or.inr hlk
      · simp only [hp] at h
        rcases ih _ _ _ _ _ h k e he with hg | hlk
        · exact Or.inl hg
        · by_cases hk : k = k0
          · subst hk
            rw [alookup_aerase_self] at hlk
            cases hlk
          · rw [alookup_aerase_ne _ _ _ hk] at hlk
            exact Or.inr hlk

theorem loadSegF_sortedKeys (gen : Nat) :
    ∀ (fuel pos : Nat) (bytes : List Char) (idx : Index) (unc : Nat)
      (q : Index × Nat),
      loadSegF gen fuel pos bytes idx unc = .ok q →
      (idx.map Prod.fst).Pairwise (· < ·) →
      (q.1.map Prod.fst).Pairwise (· < ·) := by
  intro fuel
  induction fuel with
  | zero =>
    intro pos bytes idx unc q h hs
    by_cases hb : bytes.isEmpty
    · simp only [loadSegF] at h
      rw [if_pos hb] at h
      injection h with h2
      subst h2
      exact hs
    · simp only [loadSegF] at h
      rw [if_neg hb] at h
      simp at h
  | succ f ih =>
    intro pos bytes idx unc q h hs
    by_cases hb : bytes.isEmpty
    · simp only [loadSegF] at h
      rw [if_pos hb] at h
      injection h with h2
      subst h2
      exact hs
    · simp only [loadSegF] at h
      rw [if_neg hb] at h
      rcases hp : parseOp bytes with _ | ⟨⟨k0, v0⟩ | k0, rest⟩
      · simp only [hp] at h
        simp at h
      · simp only [hp] at h
        exact ih _ _ _ _ _ h (pairwise_keys_ains _ _ _ hs)
      · simp only [hp] at h
        exact ih _ _ _ _ _ h (pairwise_keys_aerase _ _ hs)

theorem replayGo_gens (d : Disk) :
    ∀ (gs : List Nat) (idx : Index) (unc : Nat) (q : Index × Nat),
      replayGo d gs idx unc = .ok q →
      ∀ (k : String) (e : OperationPos),
        alookup q.1 k = some e → e.gen ∈ gs ∨ alookup idx k = some e := by
  intro gs
  induction gs with
  | nil =>
    intro idx unc q h k e he
    simp only [replayGo] at h
    injection h with h2
    subst h2
    exact Or.inr he
  | cons g rest ih =>
    intro idx unc q h k e he
    simp only [replayGo] at h
    cases hf : alookup d g with
    | none => simp only [hf] at h; simp at h
    | some f =>
      simp only [hf] at h
      cases hl : loadSeg g f idx unc with
      | error e0 => simp only [hl] at h; simp at h
      | ok p =>
        simp only [hl] at h
        rcases ih _ _ _ h k e he with hg | hlk
        · exact Or.inl (List.mem_cons_of_mem _ hg)
        · rcases loadSegF_gens g _ _ _ _ _ _ hl k e hlk with hg | hold
          · exact Or.inl (by rw [hg]; exact List.mem_cons_self g rest)
          · exact Or.inr hold

theorem replayGo_sortedKeys (d : Disk) :
    ∀ (gs : List Nat) (idx : Index) (unc : Nat) (q : Index × Nat),
      replayGo d gs idx unc = .ok q →
      (idx.map Prod.fst).Pairwise (· < ·) →
      (q.1.map Prod.fst).Pairwise (· < ·) := by
  intro gs
  induction gs with
  | nil =>
    intro idx unc q h hs
    simp only [replayGo] at h
    injection h with h2
    subst h2
    exact hs
  | cons g rest ih =>
    intro idx unc q h hs
    simp only [replayGo] at h
    cases hf : alookup d g with
    | none => simp only [hf] at h; simp at h
    | some f =>
      simp only [hf] at h
      cases hl : loadSeg g f idx unc with
      | error e0 => simp only [hl] at h; simp at h
      | ok p =>
        simp only [hl] at h
        exact ih _ _ _ h (loadSegF_sortedKeys g _ _ _ _ _ _ hl hs)

theorem liteInv_open (d : Disk) (s : LiteState) (h : openLite d = .ok s) :
    LiteInv s := by
  simp only [openLite] at h
  cases hr : replayDisk d with
  | error e => simp only [hr] at h; simp at h
  | ok p =>
    simp only [hr] at h
    injection h with h2
    subst h2
    refine ⟨?_, ?_, ?_⟩
    · exact replayGo_sortedKeys d _ _ _ _ hr List.Pairwise.nil
    · intro k e he
      rcases replayGo_gens d _ _ _ _ hr k e he with hg | h0
      · exact List.mem_append_left _ hg
      · simp [alookup] at h0
    · exact List.mem_append_right _ (by simp)

theorem liteCompactFold_ne_panic (cgen : Nat) (rs : List Nat) :
    ∀ (rest : List (String × OperationPos)) (d : Disk) (idx : Index) (np : Nat),
      (∀ q ∈ rest, q.2.gen ∈ rs) →
      liteCompactFold cgen rs rest d idx np ≠ .error .panic := by
  intro rest
  induction rest with
  | nil =>
    intro d idx np _ h
    simp [liteCompactFold] at h
  | cons q rest ih =>
    intro d idx np hmem h
    obtain ⟨k0, e0⟩ := q
    have hg : e0.gen ∈ rs := hmem (k0, e0) (List.mem_cons_self _ _)
    simp only [liteCompactFold] at h
    rw [if_pos hg] at h
    cases halo : alookup d e0.gen with
    | none => simp only [halo] at h; simp at h
    | some f =>
      simp only [halo] at h
      exact ih _ _ _ (fun q hq => hmem q (List.mem_cons_of_mem _ hq)) h

theorem liteCompactFold_gens (cgen : Nat) (rs : List Nat) :
    ∀ (rest : List (String × OperationPos)) (d : Disk) (idx : Index) (np : Nat)
      (p : Disk × Index),
      liteCompactFold cgen rs rest d idx np = .ok p →
      (∀ k e, alookup idx k = some e → e.gen = cgen ∨ k ∈ rest.map Prod.fst) →
      ∀ (k : String) (e : OperationPos), alookup p.2 k = some e → e.gen = cgen := by
  intro rest
  induction rest with
  | nil =>
    intro d idx np p h hh k e he
    simp only [liteCompactFold] at h
    injection h with h2
    subst h2
    rcases hh k e he with hg | hk
    · exact hg
    · simp at hk
  | cons q rest ih =>
    intro d idx np p h hh k e he
    obtain ⟨k0, e0⟩ := q
    simp only [liteCompactFold] at h
    by_cases hg : e0.gen ∈ rs
    · rw [if_pos hg] at h
      cases halo : alookup d e0.gen with
      | none => simp only [halo] at h; simp at h
      | some f =>
        simp only [halo] at h
        refine ih _ _ _ _ h ?_ k e he
        intro k1 e1 h1
        by_cases hk1 : k1 = k0
        · subst hk1
          rw [alookup_ains_self] at h1
          cases h1
          exact Or.inl rfl
        · rw [alookup_ains_ne _ _ _ _ hk1] at h1
          rcases hh k1 e1 h1 with hc | hm
          · exact Or.inl hc
          · simp only [List.map_cons] at hm
            rcases List.mem_cons.mp hm with h0 | hr
            · exact absurd h0 hk1
            · exact Or.inr hr
    · rw [if_neg hg] at h
      simp at h

theorem liteCompactFold_sortedKeys (cgen : Nat) (rs : List Nat) :
    ∀ (rest : List (String × OperationPos)) (d : Disk) (idx : Index) (np : Nat)
      (p : Disk × Index),
      liteCompactFold cgen rs rest d idx np = .ok p →
      (idx.map Prod.fst).Pairwise (· < ·) →
      (p.2.map Prod.fst).Pairwise (· < ·) := by
  intro rest
  induction rest with
  | nil =>
    intro d idx np p h hs
    simp only [liteCompactFold] at h
    injection h with h2
    subst h2
    exact hs
  | cons q rest ih =>
    intro d idx np p h hs
    obtain ⟨k0, e0⟩ := q
    simp only [liteCompactFold] at h
    by_cases hg : e0.gen ∈ rs
    · rw [if_pos hg] at h
      cases halo : alookup d e0.gen with
      | none => simp only [halo] at h; simp at h
      | some f =>
        simp only [halo] at h
        exact ih _ _ _ _ h (pairwise_keys_ains _ _ _ hs)
    · rw [if_neg hg] at h
      simp at h

theorem liteInv_compact {s s' : LiteState} (hinv : LiteInv s)
    (h : compactLite s = .ok s') : LiteInv s' := by
  simp only [compactLite] at h
  cases hf : liteCompactFold (s.currentGen + 1)
      ((s.readers ++ [s.currentGen + 2]) ++ [s.currentGen + 1]) s.index
      (diskCreate (diskCreate s.disk (s.currentGen + 2)) (s.currentGen + 1))
      s.index 0 with
  | error e => simp only [hf] at h; simp at h
  | ok p =>
    simp only [hf] at h
    by_cases hall :
        (((s.readers ++ [s.currentGen + 2]) ++ [s.currentGen + 1]).filter
            (fun g => decide (g < s.currentGen + 1))).all
          (fun g => (alookup p.1 g).isSome) = true
    · rw [if_pos hall] at h
      injection h with h2
      subst h2
      refine ⟨?_, ?_, ?_⟩
      · exact liteCompactFold_sortedKeys _ _ _ _ _ _ _ hf hinv.idxSorted
      · intro k e he
        have hg : e.gen = s.currentGen + 1 := by
          refine liteCompactFold_gens _ _ _ _ _ _ _ hf ?_ k e he
          intro k1 e1 h1
          exact Or.inr (List.mem_map_of_mem Prod.fst (mem_of_alookup_eq_some h1))
        rw [hg]
        refine List.mem_filter.mpr ⟨List.mem_append_right _ (by simp), ?_⟩
        simp
      · refine List.mem_filter.mpr ⟨List.mem_append_left _ (List.mem_append_right _ (by simp)), ?_⟩
        simp only [decide_eq_true_eq]
        omega
    · rw [if_neg hall] at h
      simp at h

theorem liteInv_set {s : LiteState} (hinv : LiteInv s) (k v : String)
    {s' : LiteState} (h : setLite s k v = .ok s') : LiteInv s' := by
  simp only [setLite] at h
  have hs1 : LiteInv
      ⟨diskAppend s.disk s.currentGen (encOp (.Set k v)), s.readers,
        ains s.index k ⟨s.currentGen, s.writerPos, (encOp (.Set k v)).length⟩,
        s.currentGen, s.writerPos + (encOp (.Set k v)).length,
        s.uncompacted + oldLen s.index k⟩ := by
    refine ⟨?_, ?_, ?_⟩
    · exact pairwise_keys_ains _ _ _ hinv.idxSorted
    · intro k1 e1 h1
      by_cases hk1 : k1 = k
      · subst hk1
        rw [alookup_ains_self] at h1
        cases h1
        exact hinv.curReader
      · rw [alookup_ains_ne _ _ _ _ hk1] at h1
        exact hinv.entriesGens k1 e1 h1
    · exact hinv.curReader
  by_cases ht : s.uncompacted + oldLen s.index k > COMPACTION_THRESHOLD
  · rw [if_pos ht] at h
    exact liteInv_compact hs1 h
  · rw [if_neg ht] at h
    injection h with h2
    subst h2
    exact hs1

theorem liteInv_rm {s : LiteState} (hinv : LiteInv s) (k : String)
    {s' : LiteState} (h : removeLite s k = .ok s') : LiteInv s' := by
  simp only [removeLite] at h
  cases hal : alookup s.index k with
  | none => simp only [hal] at h; simp at h
  | some old =>
    simp only [hal] at h
    have hs1 : LiteInv
        ⟨diskAppend s.disk s.currentGen (encOp (.Rm k)), s.readers,
          aerase s.index k, s.currentGen,
          s.writerPos + (encOp (.Rm k)).length, s.uncompacted + old.len⟩ := by
      refine ⟨?_, ?_, ?_⟩
      · exact pairwise_keys_aerase _ _ hinv.idxSorted
      · intro k1 e1 h1
        by_cases hk1 : k1 = k
        · subst hk1
          rw [alookup_aerase_self] at h1
          cases h1
        · rw [alookup_aerase_ne _ _ _ hk1] at h1
          exact hinv.entriesGens k1 e1 h1
      · exact hinv.curReader
    by_cases ht : s.uncompacted + old.len > COMPACTION_THRESHOLD
    · rw [if_pos ht] at h
      exact liteInv_compact hs1 h
    · rw [if_neg ht] at h
      injection h with h2
      subst h2
      exact hs1

theorem liteReachable_inv {s : LiteState} (h : LiteReachable s) : LiteInv s := by
  induction h with
  | openStep d s hopen => exact liteInv_open d s hopen
  | set s k v s' _ hstep ih => exact liteInv_set ih k v hstep
  | rm s k s' _ hstep ih => exact liteInv_rm ih k hstep
  | compact s s' _ hstep ih => exact liteInv_compact ih hstep

theorem liteGet_ne_panic {s : LiteState} (hinv : LiteInv s) (k : String) :
    liteGet s k ≠ .error .panic := by
  intro h
  simp only [liteGet] at h
  cases hal : alookup s.index k with
  | none => simp only [hal] at h; simp at h
  | some e =>
    simp only [hal] at h
    have hg : e.gen ∈ s.readers := hinv.entriesGens k e hal
    simp only [liteRead] at h
    rw [if_pos hg] at h
    cases hd : alookup s.disk e.gen with
    | none => simp only [hd] at h; simp at h
    | some f =>
      simp only [hd] at h
      rcases hp : parseOp (window f e.pos e.len) with _ | ⟨⟨k0, v0⟩ | k0, rest⟩
      · simp only [hp] at h; simp at h
      · cases rest with
        | nil => simp only [hp] at h; simp at h
        | cons c cs => simp only [hp] at h; simp at h
      · cases rest with
        | nil => simp only [hp] at h; simp at h
        | cons c cs => simp only [hp] at h; simp at h

/-! ## The network server (`src/server.rs`)

`src/server.rs` declares `KvsServer<E> { engine: E }` with
`new(engine)` and a `run` whose accept loop calls `self.serve(stream,
logger)` directly on each accepted connection.  `serve` iterates the
connection's request frames, applies the engine operation, and writes a
response frame per request.  The request/response frame types live in
the crate's `common` module, whose source file is not present in `src/`;
they are modelled from the spec below. -/

/-- Modelled from the spec: a request frame — `Get{key}`, `Set{key,value}`
or `Rm{key}`. -/
inductive Request where
  | get (key : String)
  | set (key value : String)
  | rm (key : String)
deriving DecidableEq

/-- Modelled from the spec: a response frame — per request kind, `Ok`
with the payload or `Err` with the error's display string. -/
inductive Response where
  | getOk (value : Option String)
  | getErr (msg : String)
  | setOk
  | setErr (msg : String)
  | rmOk
  | rmErr (msg : String)
deriving DecidableEq

/-- The display string of an engine error (`error.rs`):
`KeyNotFound` → "Key not found", `UnexpectedCommandType` →
"Unexpected command type"; `Io` and `Serde` display the wrapped error's
own message, abstracted here as a fixed marker. -/
def errMsg : KvsError → String
  | .keyNotFound => "Key not found"
  | .unexpectedCommandType => "Unexpected command type"
  | .io => "I/O error"
  | .serde => "serde error"

/-- One request handled by `KvsServer::serve` against the engine. -/
def serveReq (s : KvState) : Request → KvState × Response
  | .get k =>
    match getOp s k with
    | .ok v => (s, .getOk v)
    | .error e => (s, .getErr (errMsg e))
  | .set k v =>
    match setOp s k v with
    | .ok s' => (s', .setOk)
    | .error e => (s, .setErr (errMsg e))
  | .rm k =>
    match removeOp s k with
    | .ok s' => (s', .rmOk)
    | .error e => (s, .rmErr (errMsg e))

/-- `KvsServer::serve`: handle the connection's requests in order,
returning the final engine state and the response sequence. -/
def serveConn (s : KvState) : List Request → KvState × List Response
  | [] => (s, [])
  | r :: rs =>
    let p := serveReq s r
    let q := serveConn p.1 rs
    (q.1, p.2 :: q.2)

/-- `KvsServer::run` (`src/server.rs`): the accept loop serves each
accepted connection INLINE — `self.serve(stream, logger)` is called in
the loop body itself; no job is handed to any worker pool (the struct
has no pool field and `new` takes only the engine). -/
def runServer (s : KvState) : List (List Request) → KvState × List (List Response)
  | [] => (s, [])
  | c :: cs =>
    let p := serveConn s c
    let q := runServer p.1 cs
    (q.1, p.2 :: q.2)

theorem compactLite_ne_panic {s : LiteState} (hinv : LiteInv s) :
    compactLite s ≠ .error .panic := by
  intro h
  simp only [compactLite] at h
  cases hf : liteCompactFold (s.currentGen + 1)
      ((s.readers ++ [s.currentGen + 2]) ++ [s.currentGen + 1]) s.index
      (diskCreate (diskCreate s.disk (s.currentGen + 2)) (s.currentGen + 1))
      s.index 0 with
  | error e =>
    simp only [hf] at h
    have he : e = LiteErr.panic := by
      injection h
    subst he
    refine liteCompactFold_ne_panic _ _ _ _ _ _ ?_ hf
    intro q hq
    have hl : alookup s.index q.1 = some q.2 :=
      alookup_of_mem_nodup (pairwise_lt_nodup hinv.idxSorted) hq
    exact List.mem_append_left _ (List.mem_append_left _ (hinv.entriesGens q.1 q.2 hl))
  | ok p =>
    simp only [hf] at h
    by_cases hall :
        (((s.readers ++ [s.currentGen + 2]) ++ [s.currentGen + 1]).filter
            (fun g => decide (g < s.currentGen + 1))).all
          (fun g => (alookup p.1 g).isSome) = true
    · rw [if_pos hall] at h
      simp at h
    · rw [if_neg hall] at h
      simp at h

/-! ## Concrete example states used by the claim witnesses

Each state below is the fully evaluated result of the engine operations
named in its doc comment, written out literally so that the witness
equalities are definitional. -/

set_option maxRecDepth 40000

/-- The freshly opened empty store after `set "a" "b"`
(`setOp ⟨[(1, [])], [], 1, 0, 0, 0⟩ "a" "b"`). -/
def c2S1 : KvState :=
  ⟨[(1, "\x7b\"type\":\"Set\",\"key\":\"a\",\"value\":\"b\"\x7d".data)],
    [("a", ⟨1, 0, 36⟩)], 1, 36, 0, 0⟩

/-- ... and the store obtained by reopening that directory
(`openDisk c2S1.disk`). -/
def c2S2 : KvState :=
  ⟨[(1, "\x7b\"type\":\"Set\",\"key\":\"a\",\"value\":\"b\"\x7d".data), (2, "".data)],
    [("a", ⟨1, 0, 36⟩)], 2, 0, 0, 0⟩

/-- The freshly opened empty store after one compaction
(`compactOp ⟨[(1, [])], [], 1, 0, 0, 0⟩`). -/
def c3S1 : KvState := ⟨[(3, "".data), (2, "".data)], [], 3, 0, 0, 2⟩

/-- The freshly opened empty store after `set "a" "b"`. -/
def c4S1 : KvState :=
  ⟨[(1, "\x7b\"type\":\"Set\",\"key\":\"a\",\"value\":\"b\"\x7d".data)],
    [("a", ⟨1, 0, 36⟩)], 1, 36, 0, 0⟩

/-- ... then `remove "a"` (`removeOp c4S1 "a"`). -/
def c4S2 : KvState :=
  ⟨[(1, ("\x7b\"type\":\"Set\",\"key\":\"a\",\"value\":\"b\"\x7d"
      ++ "\x7b\"type\":\"Rm\",\"key\":\"a\"\x7d").data)],
    [], 1, 59, 59, 0⟩

/-- A state whose index entry for "a" points at a tombstone record. -/
def c5S : KvState :=
  ⟨[(1, encOp (.Rm "a"))], [("a", ⟨1, 0, (encOp (.Rm "a")).length⟩)], 1,
    (encOp (.Rm "a")).length, 0, 0⟩

/-- The freshly opened empty store after `set "a" "b"`. -/
def c6S1 : KvState :=
  ⟨[(1, "\x7b\"type\":\"Set\",\"key\":\"a\",\"value\":\"b\"\x7d".data)],
    [("a", ⟨1, 0, 36⟩)], 1, 36, 0, 0⟩

/-- The freshly opened empty store after one compaction. -/
def c7S1 : KvState := ⟨[(3, "".data), (2, "".data)], [], 3, 0, 0, 2⟩

/-- The concurrent engine's state after `set "a" "b"` on the freshly opened
empty store. -/
def c9K1 : KvState :=
  ⟨[(1, "\x7b\"type\":\"Set\",\"key\":\"a\",\"value\":\"b\"\x7d".data)],
    [("a", ⟨1, 0, 36⟩)], 1, 36, 0, 0⟩

/-- ... then `remove "a"` through the concurrent engine
(`removeOp c9K1 "a"`): the counter gains 36 + 23. -/
def c9K2 : KvState :=
  ⟨[(1, ("\x7b\"type\":\"Set\",\"key\":\"a\",\"value\":\"b\"\x7d"
      ++ "\x7b\"type\":\"Rm\",\"key\":\"a\"\x7d").data)],
    [], 1, 59, 59, 0⟩

/-- The single-threaded store opened on an empty directory
(`openLite []`). -/
def c9L0 : LiteState := ⟨[(1, "".data)], [1], [], 1, 0, 0⟩

/-- ... after `set "a" "b"` (`setLite c9L0 "a" "b"`). -/
def c9L1 : LiteState :=
  ⟨[(1, "\x7b\"type\":\"Set\",\"key\":\"a\",\"value\":\"b\"\x7d".data)],
    [1], [("a", ⟨1, 0, 36⟩)], 1, 36, 0⟩

/-- ... then `remove "a"` through `src/kv.rs` (`removeLite c9L1 "a"`): the
counter gains only 36. -/
def c9L2 : LiteState :=
  ⟨[(1, ("\x7b\"type\":\"Set\",\"key\":\"a\",\"value\":\"b\"\x7d"
      ++ "\x7b\"type\":\"Rm\",\"key\":\"a\"\x7d").data)],
    [1], [], 1, 59, 36⟩

/-- The single-threaded store opened on an empty directory. -/
def c10L0 : LiteState := ⟨[(1, "".data)], [1], [], 1, 0, 0⟩

/-- ... after `set "a" "b"`. -/
def c10L1 : LiteState :=
  ⟨[(1, "\x7b\"type\":\"Set\",\"key\":\"a\",\"value\":\"b\"\x7d".data)],
    [1], [("a", ⟨1, 0, 36⟩)], 1, 36, 0⟩

/-! ## The claims -/

/-- C1: on any well-formed engine state, `set(K, V)` followed by `get(K)`
returns `some V`, and `set(K, V₁); set(K, V₂); get(K)` returns `some V₂` —
the entry stored by `set` locates exactly the appended bytes and `get`
decodes them back to the written value. -/
theorem C1 {s : KvState} {si lo} (h : WF s si lo) (k v1 v2 : String) :
    ∃ s1 s2, setOp s k v1 = .ok s1 ∧ getOp s1 k = .ok (some v1) ∧
      setOp s1 k v2 = .ok s2 ∧ getOp s2 k = .ok (some v2) := by
  obtain ⟨s1, si1, lo1, hok1, hwf1, hmod1⟩ := wf_set h k v1
  obtain ⟨s2, si2, lo2, hok2, hwf2, hmod2⟩ := wf_set hwf1 k v2
  refine ⟨s1, s2, hok1, ?_, hok2, ?_⟩
  · rw [wf_get hwf1 k, hmod1 k, alookup_ains_self]
  · rw [wf_get hwf2 k, hmod2 k, alookup_ains_self]

theorem C1_witness :
    ∃ s1 s2, setOp (⟨[(1, [])], [], 1, 0, 0, 0⟩ : KvState) "a" "b" = .ok s1 ∧
      getOp s1 "a" = .ok (some "b") ∧
      setOp s1 "a" "c" = .ok s2 ∧ getOp s2 "a" = .ok (some "c") :=
  C1 wf_openEmpty "a" "b" "c"

/-- C2: any successful command sequence from the freshly opened empty
store, followed by a clean close and reopen of the same directory,
rebuilds an index under which every `get(K)` returns exactly the value
implied by the final write to `K` in the sequence. -/
theorem C2 (cmds : List KVCmd) (s s' : KvState)
    (hrun : runOps ⟨[(1, [])], [], 1, 0, 0, 0⟩ cmds = .ok s)
    (hreopen : openDisk s.disk = .ok s') (k : String) :
    getOp s' k = .ok (specLast cmds k) := by
  obtain ⟨si, lo, hwf, hmod⟩ := run_preserve cmds _ [] [] wf_openEmpty s hrun
  obtain ⟨s'', hok, hwf', hcur, hidx, hm⟩ := wf_reopen hwf
  rw [hok] at hreopen
  obtain rfl := Except.ok.inj hreopen
  rw [wf_get hwf' k, hm k, hmod k,
    foldl_applyCmdM_congr cmds
      (modelSegs (segsOf [] (⟨[(1, [])], [], 1, 0, 0, 0⟩ : KvState).currentGen []))
      [] (fun k' => rfl) k,
    foldl_applyCmdM_specLast]

theorem C2_witness :
    runOps ⟨[(1, [])], [], 1, 0, 0, 0⟩ [KVCmd.set "a" "b"] = .ok c2S1 ∧
    openDisk c2S1.disk = .ok c2S2 ∧
    getOp c2S2 "a" = .ok (specLast [KVCmd.set "a" "b"] "a") ∧
    specLast [KVCmd.set "a" "b"] "a" = some "b" :=
  ⟨rfl, rfl, C2 [KVCmd.set "a" "b"] c2S1 c2S2 rfl rfl "a", rfl⟩

/-- C3: compaction succeeds on any well-formed state and leaves the
logical state unchanged — `get` returns the same result for every key
before and after. -/
theorem C3 {s : KvState} {si lo} (h : WF s si lo) :
    ∃ s', compactOp s = .ok s' ∧ ∀ k, getOp s' k = getOp s k := by
  obtain ⟨s', si', lo', hok, hwf', _, _, _, _, hmod⟩ := wf_compact h
  refine ⟨s', hok, ?_⟩
  intro k
  rw [wf_get hwf' k, wf_get h k, hmod k]

theorem C3_witness :
    WF (⟨[(1, [])], [], 1, 0, 0, 0⟩ : KvState) [] [] ∧
    compactOp ⟨[(1, [])], [], 1, 0, 0, 0⟩ = .ok c3S1 ∧
    (∃ s', compactOp ⟨[(1, [])], [], 1, 0, 0, 0⟩ = .ok s' ∧
      ∀ k, getOp s' k = getOp (⟨[(1, [])], [], 1, 0, 0, 0⟩ : KvState) k) :=
  ⟨wf_openEmpty, rfl, C3 wf_openEmpty⟩

/-- C4: on a well-formed state, `remove(K)` fails with `KeyNotFound`
exactly when `K` is absent from the index (the error case returns no
successor state: nothing is appended, nothing changes); on a present key
it succeeds and `K` is absent from the index afterwards. -/
theorem C4 {s : KvState} {si lo} (h : WF s si lo) (k : String) :
    (removeOp s k = .error .keyNotFound ↔ alookup s.index k = none) ∧
    (∀ old, alookup s.index k = some old →
      ∃ s', removeOp s k = .ok s' ∧ alookup s'.index k = none) := by
  constructor
  · constructor
    · intro herr
      cases hk : alookup s.index k with
      | none => rfl
      | some old =>
        obtain ⟨s', si', lo', hok, _, _⟩ := wf_remove_present h k old hk
        rw [hok] at herr
        simp at herr
    · intro hnone
      exact removeOp_absent hnone
  · intro old hk
    obtain ⟨s', si', lo', hok, hwf', hmod⟩ := wf_remove_present h k old hk
    refine ⟨s', hok, ?_⟩
    have hc := wf_corr hwf' k
    have hm : alookup (modelSegs (segsOf si' s'.currentGen lo')) k = none := by
      rw [hmod k, alookup_aerase_self]
    rw [hm] at hc
    cases hx : alookup s'.index k with
    | none => rfl
    | some e => rw [hx] at hc; exact absurd hc (by simp [corrAt])

theorem C4_witness :
    removeOp (⟨[(1, [])], [], 1, 0, 0, 0⟩ : KvState) "a" = .error .keyNotFound ∧
    alookup c4S1.index "a" = some ⟨1, 0, 36⟩ ∧
    removeOp c4S1 "a" = .ok c4S2 ∧
    (∃ s2, removeOp c4S1 "a" = .ok s2 ∧ alookup s2.index "a" = none) := by
  obtain ⟨s1, si1, lo1, hok, hwf1, hmods⟩ := wf_set wf_openEmpty "a" "b"
  have h2 : setOp ⟨[(1, [])], [], 1, 0, 0, 0⟩ "a" "b" = .ok c4S1 := rfl
  rw [hok] at h2
  have e1 : s1 = c4S1 := Except.ok.inj h2
  subst e1
  exact ⟨(C4 wf_openEmpty "a").1.mpr rfl, rfl, rfl,
    (C4 hwf1 "a").2 ⟨1, 0, 36⟩ rfl⟩

/-- C5: `get(K)` returns `ok none` for every key absent from the index
(never an error on a missing key); if the index entry resolves to a
tombstone (`Rm`) record, `get` fails with `UnexpectedCommandType`. -/
theorem C5 (s : KvState) (k : String) :
    (alookup s.index k = none → getOp s k = .ok none) ∧
    (∀ e k0, alookup s.index k = some e →
      readOperation s.disk e = .ok (.Rm k0) →
      getOp s k = .error .unexpectedCommandType) := by
  constructor
  · intro h
    simp only [getOp, h]
  · intro e k0 he hr
    simp only [getOp, he, hr]

theorem C5_witness :
    alookup c5S.index "b" = none ∧ getOp c5S "b" = .ok none ∧
    alookup c5S.index "a" = some ⟨1, 0, (encOp (.Rm "a")).length⟩ ∧
    readOperation c5S.disk ⟨1, 0, (encOp (.Rm "a")).length⟩ = .ok (.Rm "a") ∧
    getOp c5S "a" = .error .unexpectedCommandType := by
  have h1 : alookup c5S.index "b" = none := rfl
  have h3 : readOperation c5S.disk ⟨1, 0, (encOp (.Rm "a")).length⟩
      = .ok (.Rm "a") := rfl
  exact ⟨h1, (C5 c5S "b").1 h1, rfl, h3,
    (C5 c5S "a").2 ⟨1, 0, (encOp (.Rm "a")).length⟩ "a" rfl h3⟩

/-- C6: at every reachable state, every index entry's segment file exists
on disk and the entry's window `pos + len` lies within that file's size. -/
theorem C6 {s : KvState} (h : Reachable s) :
    ∀ k e, alookup s.index k = some e →
      ∃ f, alookup s.disk e.gen = some f ∧ e.pos + e.len ≤ f.length := by
  obtain ⟨si, lo, hwf⟩ := reachable_wf h
  intro k e he
  have hc := wf_corr hwf k
  rw [he] at hc
  cases hm : alookup (modelSegs (segsOf si s.currentGen lo)) k with
  | none => rw [hm] at hc; exact absurd hc (by simp [corrAt])
  | some v =>
    rw [hm] at hc
    obtain ⟨ops, hseg, hle, hwin⟩ := hc
    refine ⟨encOps ops, ?_, hle⟩
    rw [hwf.files, hseg]
    rfl

theorem C6_witness :
    alookup c6S1.index "a" = some ⟨1, 0, 36⟩ ∧
    (∃ f, alookup c6S1.disk (1 : Nat) = some f ∧ 0 + 36 ≤ f.length) := by
  have hr : Reachable c6S1 :=
    Reachable.set ⟨[(1, [])], [], 1, 0, 0, 0⟩ "a" "b" c6S1
      (Reachable.init ⟨[(1, [])], [], 1, 0, 0, 0⟩ rfl) rfl
  exact ⟨rfl, C6 hr "a" ⟨1, 0, 36⟩ rfl⟩

/-- C7: compaction invoked with current generation `g` succeeds on any
well-formed state, repoints every live index entry into the compaction
generation `C = g + 1`, installs `N = g + 2` as the new current
generation, publishes the safe point as `C`, and resets the dead-byte
counter to zero. -/
theorem C7 {s : KvState} {si lo} (h : WF s si lo) :
    ∃ s', compactOp s = .ok s' ∧
      s'.currentGen = s.currentGen + 2 ∧
      s'.safePoint = s.currentGen + 1 ∧
      s'.uncompacted = 0 ∧
      ∀ k e, alookup s'.index k = some e → e.gen = s.currentGen + 1 := by
  obtain ⟨s', si', lo', hok, _, h1, h2, h3, h4, _⟩ := wf_compact h
  exact ⟨s', hok, h1, h2, h3, h4⟩

theorem C7_witness :
    WF (⟨[(1, [])], [], 1, 0, 0, 0⟩ : KvState) [] [] ∧
    compactOp ⟨[(1, [])], [], 1, 0, 0, 0⟩ = .ok c7S1 ∧
    (∃ s', compactOp ⟨[(1, [])], [], 1, 0, 0, 0⟩ = .ok s' ∧
      s'.currentGen = 1 + 2 ∧ s'.safePoint = 1 + 1 ∧ s'.uncompacted = 0 ∧
      ∀ k e, alookup s'.index k = some e → e.gen = 1 + 1) :=
  ⟨wf_openEmpty, rfl, C7 wf_openEmpty⟩

/-- C8: what `KvsServer::run` of `src/server.rs` actually does with the
accepted connections: each one is served INLINE in the accept loop, so the
run is the strictly sequential left fold of `serve` over the connections —
no per-connection job is handed to a worker pool (the server struct holds
only the engine and `new` takes one argument), contradicting the claimed
dispatch to the pool. -/
theorem C8 (s : KvState) (conns : List (List Request)) :
    (runServer s conns).1 = conns.foldl (fun st c => (serveConn st c).1) s := by
  induction conns generalizing s with
  | nil => rfl
  | cons c cs ih =>
    simp only [runServer, List.foldl_cons]
    exact ih _

/-- C9 (amended): on a present key and below the compaction threshold,
the concurrent engine (`src/engines/kvs.rs`) adds the superseded record's
length plus the just-appended tombstone's length to the dead-byte counter,
while the single-threaded `KvStore` of `src/kv.rs` adds only the
superseded record's length. -/
theorem C9 {s : KvState} {sl : LiteState} (k : String)
    (old : OperationPos) (hk : alookup s.index k = some old)
    (hthr : ¬s.uncompacted + old.len + (encOp (.Rm k)).length > COMPACTION_THRESHOLD)
    (oldl : OperationPos) (hkl : alookup sl.index k = some oldl)
    (hthrl : ¬sl.uncompacted + oldl.len > COMPACTION_THRESHOLD) :
    (∃ s', removeOp s k = .ok s' ∧
      s'.uncompacted = s.uncompacted + old.len + (encOp (.Rm k)).length) ∧
    (∃ sl', removeLite sl k = .ok sl' ∧
      sl'.uncompacted = sl.uncompacted + oldl.len) := by
  constructor
  · simp only [removeOp, hk]
    rw [if_neg hthr]
    exact ⟨_, rfl, rfl⟩
  · simp only [removeLite, hkl]
    rw [if_neg hthrl]
    exact ⟨_, rfl, rfl⟩

/-- C9 counterexample to the claim as stated: in `src/kv.rs`, removing a
present key adds only the superseded `Set` record's length (36) to the
dead-byte counter, not the superseded length plus the tombstone's length
(36 + 23), as the concurrent engine does on the same history. -/
theorem C9_counterexample :
    removeLite c9L1 "a" = .ok c9L2 ∧
    removeOp c9K1 "a" = .ok c9K2 ∧
    c9L1.uncompacted = 0 ∧ c9K1.uncompacted = 0 ∧
    (encOp (.Set "a" "b")).length = 36 ∧
    (encOp (.Rm "a")).length = 23 ∧
    c9K2.uncompacted = 0 + 36 + 23 ∧
    c9L2.uncompacted = 0 + 36 ∧
    c9L2.uncompacted ≠ 0 + 36 + 23 :=
  ⟨rfl, rfl, rfl, rfl, rfl, rfl, rfl, rfl, by decide⟩

theorem C9_witness :
    alookup c9K1.index "a" = some ⟨1, 0, 36⟩ ∧
    alookup c9L1.index "a" = some ⟨1, 0, 36⟩ ∧
    ((∃ s', removeOp c9K1 "a" = .ok s' ∧
        s'.uncompacted
          = c9K1.uncompacted + (⟨1, 0, 36⟩ : OperationPos).len
            + (encOp (.Rm "a")).length) ∧
      (∃ sl', removeLite c9L1 "a" = .ok sl' ∧
        sl'.uncompacted = c9L1.uncompacted + (⟨1, 0, 36⟩ : OperationPos).len)) :=
  ⟨rfl, rfl, @C9 c9K1 c9L1 "a" ⟨1, 0, 36⟩ rfl (by decide) ⟨1, 0, 36⟩ rfl (by decide)⟩

/-- C10: at every reachable state of the single-threaded `KvStore` of
`src/kv.rs`, every generation referenced by an index entry has a
registered reader, so the `expect("Cannot find log reader")` lookups in
`get` and `compact` never panic. -/
theorem C10 {s : LiteState} (h : LiteReachable s) :
    (∀ k e, alookup s.index k = some e → e.gen ∈ s.readers) ∧
    (∀ k, liteGet s k ≠ .error .panic) ∧
    compactLite s ≠ .error .panic := by
  have hinv := liteReachable_inv h
  exact ⟨hinv.entriesGens, fun k => liteGet_ne_panic hinv k,
    compactLite_ne_panic hinv⟩

theorem C10_witness :
    alookup c10L1.index "a" = some ⟨1, 0, 36⟩ ∧
    (1 : Nat) ∈ c10L1.readers ∧
    liteGet c10L1 "a" ≠ .error .panic ∧
    compactLite c10L1 ≠ .error .panic := by
  have hr : LiteReachable c10L1 :=
    LiteReachable.set c10L0 "a" "b" c10L1
      (LiteReachable.openStep [] c10L0 rfl) rfl
  obtain ⟨h1, h2, h3⟩ := C10 hr
  exact ⟨rfl, h1 "a" ⟨1, 0, 36⟩ rfl, h2 "a", h3⟩

end Kvs
